import Mathlib

/-!
# Huffman file compressor (`compressor.cpp`)

A shallow embedding of the program and the properties established about it.

Modelling conventions.

* A `char` is a `Byte` (`Fin 256`); a `std::string` and the contents of a file are
  lists of bytes.  The characters `'0'`, `'1'` and `'$'` are the bytes 48, 49 and 36.
* An `int` has 32 bits.  Frequencies are integers, and every `int` operation of the
  program (`freq[c]++`, the sum of two frequencies) is followed by `wrapInt`, the
  wrap-around of two's complement arithmetic: this is what the compiled program does
  when a count passes `2 ^ 31 - 1`, although the language leaves signed overflow
  undefined.
* `size_t` is 64 bits wide and written to a file as 8 bytes, least significant first.
* An `unordered_map` is an association list with unique keys.  The order in which the
  program iterates over `codes` is not fixed by the language; it is the parameter
  `order` of `compressFile`.
* Which of several nodes of least frequency `priority_queue::top` returns is not fixed
  by the language either; it is decided by the parameter `ties`, one number for every
  `top`/`pop` pair.  This also covers the iteration order of `freq`, which only decides
  the order in which the leaves are pushed.
* File system failures (a file that cannot be opened) are outside the model.
-/

namespace Compressor

/-- One `char`, as the byte it occupies in a file. -/
abbrev Byte := Fin 256

/-- The character `'0'`. -/
def chr0 : Byte := 48

/-- The character `'1'`. -/
def chr1 : Byte := 49

/-- The character `'$'` stored in internal nodes. -/
def chrDollar : Byte := 36

/-! ## Maps -/

/-- `m[k] = v` on an `unordered_map`: overwrite the entry of `k`, or add one. -/
def assign {κ ν : Type} [DecidableEq κ] : List (κ × ν) → κ → ν → List (κ × ν)
  | [], k, v => [(k, v)]
  | (k', v') :: rest, k, v =>
    if k' = k then (k', v) :: rest else (k', v') :: assign rest k v

/-- `m.find(k)`: the value stored for `k`, if any. -/
def find {κ ν : Type} [DecidableEq κ] : List (κ × ν) → κ → Option ν
  | [], _ => none
  | (k', v') :: rest, k => if k' = k then some v' else find rest k

/-- The expression `codes[c]` where it is read: the code stored for `c`, and the empty
string when there is none. -/
def codeAt (codes : List (Byte × List Byte)) (c : Byte) : List Byte :=
  (find codes c).getD []

/-- The `int` that a computation with the exact result `x` leaves: `x` wrapped around
into the range from `-2 ^ 31` to `2 ^ 31 - 1`. -/
def wrapInt (x : Int) : Int :=
  (x + 2147483648) % 4294967296 - 2147483648

/-- `freq[c]++`: a missing entry is created with value 0 and then incremented. -/
def incr : List (Byte × Int) → Byte → List (Byte × Int)
  | [], c => [(c, 1)]
  | (k, n) :: rest, c =>
    if k = c then (k, wrapInt (n + 1)) :: rest else (k, n) :: incr rest c

/-- Insert `x` at position `i` of a list (at the end when `i` is too large). -/
def insertAt {α : Type} : Nat → α → List α → List α
  | 0, x, l => x :: l
  | _ + 1, x, [] => [x]
  | i + 1, x, y :: l => y :: insertAt i x l

/-- The order in which a range-for visits the entries of an `unordered_map`: some
rearrangement of the entries, chosen by `order`. -/
def iterate {α : Type} : List Nat → List α → List α
  | _, [] => []
  | order, x :: l => insertAt (order.headD 0) x (iterate order.tail l)

/-! ## The tree -/

/-- A `Node*`: either `nullptr` or a pointer to a node with its four fields. -/
inductive Node where
  | nullptr : Node
  | mk (data : Byte) (frequency : Int) (left right : Node) : Node
  deriving DecidableEq, Repr

/-- The test `!p` on a pointer. -/
def Node.isNull : Node → Bool
  | .nullptr => true
  | .mk _ _ _ _ => false

/-- The field `p->frequency`. -/
def Node.frequency : Node → Int
  | .nullptr => 0
  | .mk _ f _ _ => f

/-- The constructor `Node(data, frequency)`: both children are `nullptr`. -/
def Node.new (data : Byte) (frequency : Int) : Node :=
  .mk data frequency .nullptr .nullptr

/-- The comparator `compare`: `l->frequency > r->frequency`. -/
def compare (l r : Node) : Bool :=
  decide (l.frequency > r.frequency)

/-- The function `generateCodes`. -/
def generateCodes : Node → List Byte → List (Byte × List Byte) → List (Byte × List Byte)
  | .nullptr, _, codes => codes
  | .mk data _ left right, code, codes =>
    if left.isNull && right.isNull then
      assign codes data code
    else
      generateCodes right (code ++ [chr1]) (generateCodes left (code ++ [chr0]) codes)

/-! ## The priority queue -/

/-- The nodes `priority_queue::top` may return: those that `compare` puts before no
other node of the queue, that is, the nodes of least frequency. -/
def tops (pq : List Node) : List Node :=
  pq.filter (fun x => pq.all (fun y => !compare x y))

/-- The call `pq.top()`, with `tie` choosing among the candidates. -/
def pqTop (tie : Nat) (pq : List Node) : Node :=
  (tops pq).getD (tie % (tops pq).length) .nullptr

/-- The call `pq.pop()` following `pq.top()`: the returned node leaves the queue. -/
def pqPop (tie : Nat) (pq : List Node) : List Node :=
  pq.erase (pqTop tie pq)

/-- The call `pq.push(x)`. -/
def pqPush (pq : List Node) (x : Node) : List Node :=
  pq ++ [x]

/-- The loop `while (pq.size() > 1)` of `buildHuffmanTree`, run for at most `fuel`
iterations; it returns the queue it ends with. -/
def mergeLoop : Nat → List Nat → List Node → List Node
  | 0, _, pq => pq
  | fuel + 1, ties, pq =>
    if pq.length > 1 then
      let left := pqTop (ties.headD 0) pq
      let pq1 := pqPop (ties.headD 0) pq
      let right := pqTop (ties.tail.headD 0) pq1
      let pq2 := pqPop (ties.tail.headD 0) pq1
      let newNode := Node.mk chrDollar (wrapInt (left.frequency + right.frequency)) left right
      mergeLoop fuel ties.tail.tail (pqPush pq2 newNode)
    else pq

/-- The frequency table computed at the start of `buildHuffmanTree`. -/
def countFreq (text : List Byte) : List (Byte × Int) :=
  text.foldl incr []

/-- The queue after one leaf has been pushed for every entry of `freq`. -/
def leafQueue (freq : List (Byte × Int)) : List Node :=
  freq.foldl (fun pq pair => pqPush pq (Node.new pair.1 pair.2)) []

/-- The tree `root` of `buildHuffmanTree` for a non-empty text.  Every iteration
of the loop shortens the queue by one, so its initial length is enough fuel. -/
def huffmanRoot (ties : List Nat) (text : List Byte) : Node :=
  let pq := leafQueue (countFreq text)
  pqTop 0 (mergeLoop pq.length ties pq)

/-- The function `buildHuffmanTree`; `codes` is passed by reference in the source
and returned here. -/
def buildHuffmanTree (ties : List Nat) (text : List Byte)
    (codes : List (Byte × List Byte)) : List (Byte × List Byte) :=
  if text.isEmpty then codes
  else generateCodes (huffmanRoot ties text) [] codes

/-! ## Bit sets and `size_t` -/

/-- A string of characters `'0'` and `'1'` read as a binary number, the last character
being bit 0. -/
def binaryValue (s : List Byte) : Nat :=
  s.foldl (fun acc c => 2 * acc + (if c = chr1 then 1 else 0)) 0

/-- The value `bitset<8>(s).to_ulong()` for a string `s`: the constructor throws
`std::invalid_argument` (`none`) when `s` has a character other than `'0'` and
`'1'`; otherwise the first 8 characters are read as a binary number, the last of
them being bit 0. -/
def bitsetOfString (s : List Byte) : Option Nat :=
  if s.all (fun c => c = chr0 || c = chr1) then some (binaryValue (s.take 8)) else none

/-- The string `bitset<8>(byte).to_string()`: the 8 bits, most significant first. -/
def bitsetToString (byte : Byte) : List Byte :=
  (List.range 8).map (fun i => if byte.val / 2 ^ (7 - i) % 2 = 1 then chr1 else chr0)

/-- The 8 bytes written for a `size_t`. -/
def sizeBytes (n : Nat) : List Byte :=
  (List.range 8).map (fun i => Fin.ofNat (n / 256 ^ i))

/-- The `size_t` stored in a sequence of bytes, least significant first. -/
def sizeOfBytes (bs : List Byte) : Nat :=
  bs.foldr (fun b acc => b.val + 256 * acc) 0

/-! ## `compressFile` -/

/-- The bytes written for one entry of `codes`: the character, the length of its
code as a `size_t`, and the characters of the code. -/
def writeEntry (pair : Byte × List Byte) : List Byte :=
  pair.1 :: (sizeBytes (pair.2.length % 2 ^ 64) ++ pair.2)

/-- The header written by `compressFile`: the number of entries of `codes`, then for
every entry its character, the length of its code and the code. -/
def writeTable (entries : List (Byte × List Byte)) : List Byte :=
  sizeBytes (entries.length % 2 ^ 64) ++ entries.flatMap writeEntry

/-- The loop `while (compressedBits.size() >= 8)`: the state is the string
`compressedBits` and the bytes written so far. -/
def drain : Nat → List Byte → List Byte → Option (List Byte × List Byte)
  | 0, compressedBits, out => some (compressedBits, out)
  | fuel + 1, compressedBits, out =>
    if compressedBits.length ≥ 8 then
      match bitsetOfString (compressedBits.take 8) with
      | none => none
      | some v => drain fuel (compressedBits.drop 8) (out ++ [Fin.ofNat v])
    else some (compressedBits, out)

/-- One iteration of the loop over the characters of the text. -/
def packChar (codes : List (Byte × List Byte)) (state : List Byte × List Byte) (c : Byte) :
    Option (List Byte × List Byte) :=
  let compressedBits := state.1 ++ codeAt codes c
  drain compressedBits.length compressedBits state.2

/-- The loop `for (char c : text)` of `compressFile`. -/
def packText (codes : List (Byte × List Byte)) :
    List Byte → List Byte × List Byte → Option (List Byte × List Byte)
  | [], state => some state
  | c :: text, state =>
    match packChar codes state c with
    | none => none
    | some state1 => packText codes text state1

/-- The payload written by `compressFile`: the bytes of the main loop and then the
byte for the remaining bits, if there are any. -/
def packPayload (codes : List (Byte × List Byte)) (text : List Byte) : Option (List Byte) :=
  match packText codes text ([], []) with
  | none => none
  | some (compressedBits, out) =>
    if compressedBits.isEmpty then some out
    else
      match bitsetOfString compressedBits with
      | none => none
      | some v => some (out ++ [Fin.ofNat v])

/-- The function `compressFile`, from the contents of the input file to the contents
of the output file; `none` stands for an exception leaving the function. -/
def compressFile (ties order : List Nat) (text : List Byte) : Option (List Byte) :=
  let codes := buildHuffmanTree ties text []
  match packPayload codes text with
  | none => none
  | some payload => some (writeTable (iterate order codes) ++ payload)

/-! ## `decompressFile` -/

/-- Read one `size_t`.  `none`: the file ends before its 8 bytes. -/
def readSize (input : List Byte) : Option (Nat × List Byte) :=
  if input.length < 8 then none else some (sizeOfBytes (input.take 8), input.drop 8)

/-- The loop reading the `n` entries of the table into `reverseCodes`.  When the file
ends inside the characters of a code, the string `code` keeps the characters that
were read, followed by the `'\0'` it was filled with, and every later read fails: if
this is the last entry the loop ends and no payload is left; otherwise the next
iteration uses a character and a size that were never read.  The allocation of the
string `code` is taken to succeed.  `none`: the file ends inside the table at a place
where the source goes on with indeterminate values. -/
def readTable : Nat → List Byte → List (List Byte × Byte) →
    Option (List (List Byte × Byte) × List Byte)
  | 0, input, reverseCodes => some (reverseCodes, input)
  | n + 1, input, reverseCodes =>
    match input with
    | [] => none
    | c :: input1 =>
      match readSize input1 with
      | none => none
      | some (codeSize, input2) =>
        if input2.length < codeSize then
          if n = 0 then
            some (assign reverseCodes
              (input2 ++ List.replicate (codeSize - input2.length) 0) c, [])
          else none
        else readTable n (input2.drop codeSize) (assign reverseCodes (input2.take codeSize) c)

/-- One iteration of the loop `for (char bit : compressedBits)`; the state is the
string `code` and the bytes written so far. -/
def decodeBit (reverseCodes : List (List Byte × Byte)) (state : List Byte × List Byte)
    (bit : Byte) : List Byte × List Byte :=
  let code := state.1 ++ [bit]
  match find reverseCodes code with
  | some c => ([], state.2 ++ [c])
  | none => (code, state.2)

/-- The decoding loop over all the bits; it returns the final `code` and the output. -/
def decodeBits (reverseCodes : List (List Byte × Byte)) (compressedBits : List Byte) :
    List Byte × List Byte :=
  compressedBits.foldl (decodeBit reverseCodes) ([], [])

/-- The first part of `decompressFile`: read the number of entries and the entries.
The result is the map `reverseCodes` and the bytes of the file that follow the table. -/
def readHeader (input : List Byte) : Option (List (List Byte × Byte) × List Byte) :=
  match readSize input with
  | none => none
  | some (numDistinctChars, input1) => readTable numDistinctChars input1 []

/-- The loop `while (inFile.read(...))`: the string `compressedBits` made of the 8
bits of every remaining byte of the file. -/
def readBits (payload : List Byte) : List Byte :=
  payload.flatMap bitsetToString

/-- The function `decompressFile`, from the contents of the compressed file to the
contents of the output file.  `none`: the file ends inside the header, where the
source goes on with indeterminate values, so that it has no defined output. -/
def decompressFile (input : List Byte) : Option (List Byte) :=
  match readHeader input with
  | none => none
  | some (reverseCodes, payload) => some (decodeBits reverseCodes (readBits payload)).2

/-! ## Notions used in the statements -/

/-- The nodes without children of a tree, from left to right, each with its
character, its frequency and the path that leads to it from the root (`'0'` for a
step to the left, `'1'` for a step to the right), appended to `code`. -/
def leafRows : Node → List Byte → List (Byte × Int × List Byte)
  | .nullptr, _ => []
  | .mk data frequency left right, code =>
    if left.isNull && right.isNull then [(data, frequency, code)]
    else leafRows left (code ++ [chr0]) ++ leafRows right (code ++ [chr1])

/-- The table entries that belong to the leaves of a tree. -/
def leafCodes (t : Node) (code : List Byte) : List (Byte × List Byte) :=
  (leafRows t code).map (fun row => (row.1, row.2.2))

/-- The characters and frequencies at the leaves of a tree. -/
def leaves (t : Node) : List (Byte × Int) :=
  (leafRows t []).map (fun row => (row.1, row.2.1))

/-- A tree as the merge loop builds them: not `nullptr`, every node has no child or
two children, and a node with children carries the `int` sum of their frequencies. -/
def WellFormed : Node → Prop
  | .nullptr => False
  | .mk _ frequency left right =>
    (left = .nullptr ∧ right = .nullptr) ∨
      (WellFormed left ∧ WellFormed right ∧
        frequency = wrapInt (left.frequency + right.frequency))

/-- A tree, not `nullptr`, in which every node has no child or two children and a node
with children carries the exact sum of the frequencies of its two children. -/
def Additive : Node → Prop
  | .nullptr => False
  | .mk _ frequency left right =>
    (left = .nullptr ∧ right = .nullptr) ∨
      (Additive left ∧ Additive right ∧ frequency = left.frequency + right.frequency)

/-- The state of the queue during the merge loop: well-formed trees whose leaves
together are the entries of the frequency table. -/
def Forest (freq : List (Byte × Int)) (pq : List Node) : Prop :=
  (∀ t ∈ pq, WellFormed t) ∧ (pq.flatMap leaves).Perm freq

/-- A queue in which no `int` has overflowed and none will: its trees carry exact
sums, no frequency is negative, and the frequencies add up to less than `2 ^ 31`. -/
def Bounded (pq : List Node) : Prop :=
  (∀ t ∈ pq, Additive t) ∧ (∀ t ∈ pq, 0 ≤ t.frequency) ∧
    (pq.map Node.frequency).sum < 2147483648

/-- The number of bits the leaves of a tree contribute to the encoded text: the sum
over the leaves of frequency times length of the path. -/
def treeCost (t : Node) (code : List Byte) : Int :=
  ((leafRows t code).map (fun row => row.2.1 * (row.2.2.length : Int))).sum

/-- The sum of the frequencies at the leaves of a tree. -/
def leafSum (t : Node) : Int :=
  ((leaves t).map Prod.snd).sum

/-- The total of weight times length over a list of (weight, length) pairs. -/
def pairCost (P : List (Nat × Nat)) : Nat :=
  (P.map (fun p => p.1 * p.2)).sum

/-- The Kraft sum of a list of code lengths, scaled by `2 ^ L`. -/
def kraftSum (L : Nat) (lengths : List Nat) : Nat :=
  (lengths.map (fun l => 2 ^ (L - l))).sum

/-- A string of characters `'0'` and `'1'`. -/
def IsBits (s : List Byte) : Prop :=
  ∀ b ∈ s, b = chr0 ∨ b = chr1

/-- The `k` low bits of `v` as a string, most significant first. -/
def bitsOfNat : Nat → Nat → List Byte
  | 0, _ => []
  | k + 1, v => bitsOfNat k (v / 2) ++ [if v % 2 = 1 then chr1 else chr0]

/-- The map `reverseCodes` after the entries of a table have been read in order. -/
def reverseTable (entries : List (Byte × List Byte)) : List (List Byte × Byte) :=
  entries.foldl (fun reverseCodes pair => assign reverseCodes pair.2 pair.1) []

/-- The bits of the encoded text: the codes of its characters one after the other. -/
def encodedBits (codes : List (Byte × List Byte)) (text : List Byte) : List Byte :=
  text.flatMap (codeAt codes)

/-- The number of iterations the loop `while (pq.size() > 1)` makes: `mergeLoop` with
a counter in the place of the queue it returns. -/
def mergeCount : Nat → List Nat → List Node → Nat
  | 0, _, _ => 0
  | fuel + 1, ties, pq =>
    if pq.length > 1 then
      let left := pqTop (ties.headD 0) pq
      let pq1 := pqPop (ties.headD 0) pq
      let right := pqTop (ties.tail.headD 0) pq1
      let pq2 := pqPop (ties.tail.headD 0) pq1
      let newNode := Node.mk chrDollar (wrapInt (left.frequency + right.frequency)) left right
      1 + mergeCount fuel ties.tail.tail (pqPush pq2 newNode)
    else 0

/-- The walk from the root of a tree along a path, `'0'` for a step to the left and
`'1'` for a step to the right: the character of the node without children at which
the path ends, if it ends at one. -/
def leafAt : Node → List Byte → Option Byte
  | .nullptr, _ => none
  | .mk data _ left right, path =>
    if left.isNull && right.isNull then
      if path.isEmpty then some data else none
    else
      match path with
      | [] => none
      | b :: rest =>
        if b = chr0 then leafAt left rest
        else if b = chr1 then leafAt right rest
        else none

/-- Every node of a tree has either no child or two children. -/
def twoChildren : Node → Bool
  | .nullptr => true
  | .mk _ _ left right => (left.isNull == right.isNull) && twoChildren left && twoChildren right

/-- A string is the beginning of an infinite sequence of characters. -/
def Starts (s : Nat → Byte) (code : List Byte) : Prop :=
  code = (List.range code.length).map s

/-- The value `freq[c]++` leaves for `c`, from the value found before. -/
def bump : Option Int → Int
  | none => 1
  | some n => wrapInt (n + 1)

/-- A text of `n` bytes `a` followed by the five bytes "bbccc". -/
def longText (n : Nat) : List Byte :=
  List.replicate n 97 ++ [98, 98, 99, 99, 99]

/-- The assignment of "1" to `a`, "00" to `b` and "01" to every other character. -/
def rivalCode (c : Byte) : List Bool :=
  if c = 97 then [true] else if c = 98 then [false, false] else [false, true]

/-- Neither of two strings is the beginning of the other. -/
def Unrelated {α : Type} (u v : List α) : Prop :=
  ¬ u <+: v ∧ ¬ v <+: u

/-- The rest of a string that starts with `b`. -/
def after {α : Type} [DecidableEq α] (b : α) : List α → Option (List α)
  | [] => none
  | x :: t => if x = b then some t else none

end Compressor

namespace Compressor

/-! ## Facts about maps -/

section Maps
variable {κ ν : Type} [DecidableEq κ]

theorem find_assign_self (m : List (κ × ν)) (k : κ) (v : ν) :
    find (assign m k v) k = some v := by
  induction m with
  | nil => simp [assign, find]
  | cons p rest ih =>
    obtain ⟨k', v'⟩ := p
    by_cases h : k' = k
    · simp [assign, find, h]
    · simp [assign, find, h, ih]

theorem find_assign_ne (m : List (κ × ν)) (k k' : κ) (v : ν) (h : k ≠ k') :
    find (assign m k v) k' = find m k' := by
  induction m with
  | nil => simp [assign, find, h]
  | cons p rest ih =>
    obtain ⟨k1, v1⟩ := p
    by_cases h1 : k1 = k
    · subst h1
      simp [assign, find, h]
    · by_cases h2 : k1 = k'
      · subst h2
        simp [assign, find, h1]
      · simp [assign, find, h1, h2, ih]

theorem assign_of_not_mem (m : List (κ × ν)) (k : κ) (v : ν)
    (h : k ∉ m.map Prod.fst) : assign m k v = m ++ [(k, v)] := by
  induction m with
  | nil => rfl
  | cons p rest ih =>
    obtain ⟨k1, v1⟩ := p
    simp only [List.map_cons, List.mem_cons, not_or] at h
    have h1 : ¬ k1 = k := fun e => h.1 e.symm
    simp [assign, h1, ih h.2]

theorem find_eq_none_iff (m : List (κ × ν)) (k : κ) :
    find m k = none ↔ k ∉ m.map Prod.fst := by
  induction m with
  | nil => simp [find]
  | cons p rest ih =>
    obtain ⟨k1, v1⟩ := p
    by_cases h1 : k1 = k
    · simp [find, h1]
    · have h2 : ¬ k = k1 := fun e => h1 e.symm
      simp [find, h1, h2, ih]

theorem mem_of_find (m : List (κ × ν)) (k : κ) (v : ν) (h : find m k = some v) :
    (k, v) ∈ m := by
  induction m with
  | nil => simp [find] at h
  | cons p rest ih =>
    obtain ⟨k1, v1⟩ := p
    by_cases h1 : k1 = k
    · simp [find, h1] at h
      simp [h1, h]
    · simp [find, h1] at h
      exact List.mem_cons_of_mem _ (ih h)

theorem find_of_mem (m : List (κ × ν)) (k : κ) (v : ν) (hnd : (m.map Prod.fst).Nodup)
    (h : (k, v) ∈ m) : find m k = some v := by
  induction m with
  | nil => simp at h
  | cons p rest ih =>
    obtain ⟨k1, v1⟩ := p
    simp only [List.map_cons, List.nodup_cons] at hnd
    rcases List.mem_cons.1 h with h | h
    · injection h with h1 h2
      simp [find, h1, h2]
    · have hk : k ∈ rest.map Prod.fst := List.mem_map.2 ⟨(k, v), h, rfl⟩
      have h1 : ¬ k1 = k := fun e => hnd.1 (e ▸ hk)
      simp [find, h1, ih hnd.2 h]

end Maps

/-! ## The codes of a tree -/

theorem leafCodes_nullptr (code : List Byte) : leafCodes .nullptr code = [] := rfl

theorem leafCodes_leaf (data : Byte) (f : Int) (left right : Node) (code : List Byte)
    (h : (left.isNull && right.isNull) = true) :
    leafCodes (.mk data f left right) code = [(data, code)] := by
  simp [leafCodes, leafRows, h]

theorem leafCodes_inner (data : Byte) (f : Int) (left right : Node) (code : List Byte)
    (h : ¬ (left.isNull && right.isNull) = true) :
    leafCodes (.mk data f left right) code =
      leafCodes left (code ++ [chr0]) ++ leafCodes right (code ++ [chr1]) := by
  simp only [leafCodes, leafRows, h]
  simp

theorem generateCodes_eq (t : Node) : ∀ (code : List Byte) (codes : List (Byte × List Byte)),
    ((codes ++ leafCodes t code).map Prod.fst).Nodup →
    generateCodes t code codes = codes ++ leafCodes t code := by
  induction t with
  | nullptr => intro code codes _; simp [generateCodes, leafCodes_nullptr]
  | mk data f left right ihl ihr =>
    intro code codes hnd
    by_cases hleaf : (left.isNull && right.isNull) = true
    · rw [leafCodes_leaf _ _ _ _ _ hleaf] at hnd ⊢
      simp only [generateCodes, hleaf, if_true]
      apply assign_of_not_mem
      rw [List.map_append, List.nodup_append] at hnd
      intro hmem
      exact hnd.2.2 hmem (by simp)
    · rw [leafCodes_inner _ _ _ _ _ hleaf] at hnd ⊢
      simp only [generateCodes, hleaf, Bool.false_eq_true, if_false]
      rw [← List.append_assoc] at hnd
      have h1 : ((codes ++ leafCodes left (code ++ [chr0])).map Prod.fst).Nodup := by
        rw [List.map_append] at hnd
        exact (List.nodup_append.1 hnd).1
      rw [ihl _ _ h1, ihr _ _ hnd, List.append_assoc]

end Compressor

namespace Compressor

/-! ## The priority queue and the merge loop -/

theorem exists_least (pq : List Node) (h : pq ≠ []) :
    ∃ x ∈ pq, ∀ y ∈ pq, x.frequency ≤ y.frequency := by
  induction pq with
  | nil => exact absurd rfl h
  | cons t ts ih =>
    by_cases hts : ts = []
    · subst hts
      exact ⟨t, by simp, by simp⟩
    · obtain ⟨x, hx, hmin⟩ := ih hts
      by_cases hle : t.frequency ≤ x.frequency
      · refine ⟨t, by simp, ?_⟩
        intro y hy
        rcases List.mem_cons.1 hy with rfl | hy
        · exact le_refl _
        · exact le_trans hle (hmin y hy)
      · refine ⟨x, List.mem_cons_of_mem _ hx, ?_⟩
        intro y hy
        rcases List.mem_cons.1 hy with rfl | hy
        · omega
        · exact hmin y hy

theorem mem_tops (pq : List Node) (x : Node) :
    x ∈ tops pq ↔ x ∈ pq ∧ ∀ y ∈ pq, x.frequency ≤ y.frequency := by
  simp [tops, compare]

theorem tops_ne_nil (pq : List Node) (h : pq ≠ []) : tops pq ≠ [] := by
  obtain ⟨x, hx, hmin⟩ := exists_least pq h
  exact List.ne_nil_of_mem ((mem_tops pq x).2 ⟨hx, hmin⟩)

theorem pqTop_mem_tops (tie : Nat) (pq : List Node) (h : pq ≠ []) :
    pqTop tie pq ∈ tops pq := by
  have hpos : 0 < (tops pq).length := List.length_pos.2 (tops_ne_nil pq h)
  have hlt : tie % (tops pq).length < (tops pq).length := Nat.mod_lt _ hpos
  unfold pqTop
  rw [List.getD_eq_getElem _ _ hlt]
  exact List.getElem_mem _

/-- Every node of least frequency is returned by `top` for some way of deciding ties. -/
theorem pqTop_reaches (pq : List Node) (x : Node) (h : x ∈ tops pq) :
    ∃ tie, pqTop tie pq = x := by
  obtain ⟨i, hi, hx⟩ := List.getElem_of_mem h
  refine ⟨i, ?_⟩
  unfold pqTop
  rw [Nat.mod_eq_of_lt hi, List.getD_eq_getElem _ _ hi]
  exact hx

theorem pqTop_mem (tie : Nat) (pq : List Node) (h : pq ≠ []) : pqTop tie pq ∈ pq :=
  ((mem_tops pq _).1 (pqTop_mem_tops tie pq h)).1

theorem pqTop_least (tie : Nat) (pq : List Node) (h : pq ≠ []) :
    ∀ y ∈ pq, (pqTop tie pq).frequency ≤ y.frequency :=
  ((mem_tops pq _).1 (pqTop_mem_tops tie pq h)).2

theorem pqPop_perm (tie : Nat) (pq : List Node) (h : pq ≠ []) :
    pq.Perm (pqTop tie pq :: pqPop tie pq) :=
  List.perm_cons_erase (pqTop_mem tie pq h)

theorem pqTop_singleton (tie : Nat) (t : Node) : pqTop tie [t] = t := by
  have h := pqTop_mem tie [t] (by simp)
  simpa using h

/-- One iteration of the loop: two nodes of least frequency leave the queue and
their parent enters it. -/
theorem mergeLoop_step (fuel : Nat) (ties : List Nat) (pq : List Node) (h : 1 < pq.length) :
    ∃ a b rest, pq.Perm (a :: b :: rest) ∧
      (∀ y ∈ pq, a.frequency ≤ y.frequency) ∧
      (∀ y ∈ rest, b.frequency ≤ y.frequency) ∧
      mergeLoop (fuel + 1) ties pq =
        mergeLoop fuel ties.tail.tail
          (rest ++ [Node.mk chrDollar (wrapInt (a.frequency + b.frequency)) a b]) := by
  have hne : pq ≠ [] := by
    intro e; simp [e] at h
  have hp1 := pqPop_perm (ties.headD 0) pq hne
  have hne1 : pqPop (ties.headD 0) pq ≠ [] := by
    intro e
    have := hp1.length_eq
    rw [e] at this
    simp only [List.length_cons, List.length_nil] at this
    omega
  have hp2 := pqPop_perm (ties.tail.headD 0) (pqPop (ties.headD 0) pq) hne1
  refine ⟨pqTop (ties.headD 0) pq, pqTop (ties.tail.headD 0) (pqPop (ties.headD 0) pq),
    pqPop (ties.tail.headD 0) (pqPop (ties.headD 0) pq), ?_, ?_, ?_, ?_⟩
  · exact hp1.trans (hp2.cons _)
  · exact pqTop_least _ pq hne
  · intro y hy
    exact pqTop_least _ _ hne1 y (hp2.symm.subset (List.mem_cons_of_mem _ hy))
  · simp [mergeLoop, h, pqPush]

theorem mergeLoop_done (fuel : Nat) (ties : List Nat) (pq : List Node) (h : pq.length ≤ 1) :
    mergeLoop fuel ties pq = pq := by
  cases fuel with
  | zero => rfl
  | succ n =>
    have : ¬ 1 < pq.length := by omega
    simp [mergeLoop, this]

/-- An invariant of the queue that holds at the start, does not depend on the order
of the queue and survives a merge of two nodes holds when the loop ends. -/
theorem mergeLoop_invariant (P : List Node → Prop)
    (hperm : ∀ q q', q.Perm q' → P q → P q')
    (hstep : ∀ a b rest, P (a :: b :: rest) →
      P (rest ++ [Node.mk chrDollar (wrapInt (a.frequency + b.frequency)) a b])) :
    ∀ (fuel : Nat) (ties : List Nat) (pq : List Node), P pq → P (mergeLoop fuel ties pq) := by
  intro fuel
  induction fuel with
  | zero => intro ties pq h; exact h
  | succ n ih =>
    intro ties pq h
    by_cases hlen : 1 < pq.length
    · obtain ⟨a, b, rest, hp, -, -, heq⟩ := mergeLoop_step n ties pq hlen
      rw [heq]
      exact ih _ _ (hstep a b rest (hperm _ _ hp h))
    · rw [mergeLoop_done _ _ _ (by omega)]
      exact h

/-- With the initial length of the queue as fuel the loop runs to its end: exactly
one node is left. -/
theorem mergeLoop_length (fuel : Nat) : ∀ (ties : List Nat) (pq : List Node),
    pq ≠ [] → pq.length ≤ fuel + 1 → (mergeLoop fuel ties pq).length = 1 := by
  induction fuel with
  | zero =>
    intro ties pq hne hlen
    have : 0 < pq.length := List.length_pos.2 hne
    simp only [mergeLoop]
    omega
  | succ n ih =>
    intro ties pq hne hlen
    by_cases h1 : 1 < pq.length
    · obtain ⟨a, b, rest, hp, -, -, heq⟩ := mergeLoop_step n ties pq h1
      rw [heq]
      apply ih
      · simp
      · have := hp.length_eq
        simp at this ⊢
        omega
    · rw [mergeLoop_done _ _ _ (by omega)]
      have : 0 < pq.length := List.length_pos.2 hne
      omega

end Compressor

namespace Compressor

/-! ## The frequency table -/

theorem wrapInt_of_bounds (x : Int) (h0 : -2147483648 ≤ x) (h1 : x < 2147483648) :
    wrapInt x = x := by
  unfold wrapInt
  omega

theorem wrapInt_succ (x : Int) : wrapInt (wrapInt x + 1) = wrapInt (x + 1) := by
  unfold wrapInt
  omega

theorem wrapInt_natCast (n : Nat) (h : n < 2147483648) : wrapInt (n : Int) = n :=
  wrapInt_of_bounds _ (by omega) (by omega)

theorem keys_incr (m : List (Byte × Int)) (c : Byte) :
    (incr m c).map Prod.fst =
      if c ∈ m.map Prod.fst then m.map Prod.fst else m.map Prod.fst ++ [c] := by
  induction m with
  | nil => simp [incr]
  | cons p rest ih =>
    obtain ⟨k, n⟩ := p
    by_cases h : k = c
    · simp [incr, h]
    · have h' : ¬ c = k := fun e => h e.symm
      by_cases hm : c ∈ rest.map Prod.fst
      · simp only [incr, h, if_false, List.map_cons, ih, hm, if_true, List.mem_cons, or_true]
      · simp only [incr, h, if_false, List.map_cons, ih, hm, List.mem_cons, h', or_self,
          List.cons_append]

theorem find_incr (m : List (Byte × Int)) (c k : Byte) :
    find (incr m c) k = if k = c then some (bump (find m c)) else find m k := by
  induction m with
  | nil =>
    by_cases h : k = c
    · simp [incr, find, h, bump]
    · have h' : ¬ c = k := fun e => h e.symm
      simp [incr, find, h, h']
  | cons p rest ih =>
    obtain ⟨k1, n1⟩ := p
    by_cases h1 : k1 = c
    · subst h1
      by_cases h : k = k1
      · subst h
        simp [incr, find, bump]
      · have h' : ¬ k1 = k := fun e => h e.symm
        simp [incr, find, h, h']
    · by_cases h : k = c
      · subst h
        simp [incr, find, h1, ih]
      · by_cases h2 : k1 = k
        · simp [incr, find, h1, h2, h]
        · simp [incr, find, h1, h2, h, ih]

theorem countFreq_append (text : List Byte) (c : Byte) :
    countFreq (text ++ [c]) = incr (countFreq text) c := by
  simp [countFreq, List.foldl_append]

/-- The count stored for a character is its number of occurrences, as an `int`. -/
theorem find_countFreq (text : List Byte) (k : Byte) :
    find (countFreq text) k =
      if k ∈ text then some (wrapInt (text.count k)) else none := by
  induction text using List.reverseRecOn with
  | nil => simp [countFreq, find]
  | append_singleton text c ih =>
    rw [countFreq_append, find_incr]
    by_cases h : k = c
    · subst h
      rw [ih]
      by_cases hm : k ∈ text
      · simp only [hm, if_true, bump, List.mem_append, List.mem_singleton, or_true,
          List.count_append, List.count_singleton_self, Nat.cast_add, Nat.cast_one,
          wrapInt_succ]
      · have h0 : text.count k = 0 := List.count_eq_zero_of_not_mem hm
        have h1 : wrapInt 1 = 1 := by decide
        simp [hm, bump, h0, h1]
    · have h' : ¬ c = k := fun e => h e.symm
      rw [ih]
      simp [h, h', List.count_append]

theorem countFreq_keys_nodup (text : List Byte) : ((countFreq text).map Prod.fst).Nodup := by
  induction text using List.reverseRecOn with
  | nil => simp [countFreq]
  | append_singleton text c ih =>
    rw [countFreq_append, keys_incr]
    by_cases hm : c ∈ (countFreq text).map Prod.fst
    · simpa [hm] using ih
    · simp only [hm, if_false]
      rw [List.nodup_append]
      refine ⟨ih, by simp, ?_⟩
      intro a ha hb
      simp only [List.mem_singleton] at hb
      exact hm (hb ▸ ha)

theorem mem_countFreq (text : List Byte) (k : Byte) (n : Int) :
    (k, n) ∈ countFreq text ↔ k ∈ text ∧ n = wrapInt (text.count k) := by
  constructor
  · intro h
    have hf := find_of_mem _ _ _ (countFreq_keys_nodup text) h
    rw [find_countFreq] at hf
    by_cases hm : k ∈ text
    · simp only [hm, if_true, Option.some.injEq] at hf
      exact ⟨hm, hf.symm⟩
    · simp [hm] at hf
  · rintro ⟨hm, hn⟩
    apply mem_of_find
    rw [find_countFreq, hn]
    simp only [hm, if_true]

theorem mem_keys_countFreq (text : List Byte) (k : Byte) :
    k ∈ (countFreq text).map Prod.fst ↔ k ∈ text := by
  constructor
  · intro h
    obtain ⟨⟨k', n⟩, hp, rfl⟩ := List.mem_map.1 h
    exact ((mem_countFreq text k' n).1 hp).1
  · intro h
    exact List.mem_map.2
      ⟨(k, wrapInt (text.count k)), (mem_countFreq text k _).2 ⟨h, rfl⟩, rfl⟩

theorem countFreq_nodup (text : List Byte) : (countFreq text).Nodup :=
  List.Nodup.of_map _ (countFreq_keys_nodup text)

/-- The frequency table lists every distinct character of the text with its number
of occurrences, as an `int`. -/
theorem countFreq_perm (text : List Byte) :
    (countFreq text).Perm (text.dedup.map (fun s => (s, wrapInt (text.count s)))) := by
  rw [List.perm_ext_iff_of_nodup (countFreq_nodup text)]
  · rintro ⟨k, n⟩
    rw [mem_countFreq]
    simp only [List.mem_map, List.mem_dedup, Prod.mk.injEq]
    constructor
    · rintro ⟨hm, hn⟩
      exact ⟨k, hm, rfl, hn.symm⟩
    · rintro ⟨s, hs, hk, hn⟩
      rw [← hk, ← hn]
      exact ⟨hs, rfl⟩
  · apply List.Nodup.map _ (List.nodup_dedup text)
    intro a b h
    exact (Prod.mk.inj h).1

/-- For a text shorter than `2 ^ 31` bytes no count overflows: the frequency table
lists every distinct character with its number of occurrences. -/
theorem countFreq_perm_exact (text : List Byte) (hlen : text.length < 2147483648) :
    (countFreq text).Perm (text.dedup.map (fun s => (s, (text.count s : Int)))) := by
  have h := countFreq_perm text
  have heq : text.dedup.map (fun s => (s, wrapInt (text.count s))) =
      text.dedup.map (fun s => (s, (text.count s : Int))) := by
    apply List.map_congr_left
    intro s _
    have : text.count s ≤ text.length := List.count_le_length s text
    rw [wrapInt_natCast _ (by omega)]
  rw [heq] at h
  exact h

theorem keys_countFreq_perm (text : List Byte) :
    ((countFreq text).map Prod.fst).Perm text.dedup := by
  have := (countFreq_perm text).map Prod.fst
  simpa [List.map_map, Function.comp_def] using this

theorem countFreq_ne_nil (text : List Byte) (h : text ≠ []) : countFreq text ≠ [] := by
  obtain ⟨c, rest, rfl⟩ := List.exists_cons_of_ne_nil h
  have : c ∈ (countFreq (c :: rest)).map Prod.fst := (mem_keys_countFreq _ _).2 (by simp)
  intro e
  rw [e] at this
  simp at this

/-! ## The queue of leaves and the forest in the queue -/

theorem leafQueue_eq (freq : List (Byte × Int)) :
    leafQueue freq = freq.map (fun pair => Node.new pair.1 pair.2) := by
  have key : ∀ (l : List (Byte × Int)) (acc : List Node),
      l.foldl (fun pq pair => pqPush pq (Node.new pair.1 pair.2)) acc =
        acc ++ l.map (fun pair => Node.new pair.1 pair.2) := by
    intro l
    induction l with
    | nil => intro acc; simp
    | cons p l ih =>
      intro acc
      rw [List.foldl_cons, ih]
      simp [pqPush]
  simpa [leafQueue] using key freq []

theorem leafRows_new (data : Byte) (f : Int) (code : List Byte) :
    leafRows (Node.new data f) code = [(data, f, code)] := by
  simp [Node.new, leafRows, Node.isNull]

theorem isNull_of_wellFormed (t : Node) (h : WellFormed t) : t.isNull = false := by
  cases t with
  | nullptr => exact absurd h (by simp [WellFormed])
  | mk _ _ _ _ => rfl

theorem leafRows_merge (data : Byte) (f : Int) (a b : Node) (code : List Byte)
    (ha : WellFormed a) :
    leafRows (.mk data f a b) code =
      leafRows a (code ++ [chr0]) ++ leafRows b (code ++ [chr1]) := by
  simp [leafRows, isNull_of_wellFormed a ha]

/-- The characters and frequencies at the leaves do not depend on the initial path. -/
theorem leafRows_labels (t : Node) : ∀ (code : List Byte),
    (leafRows t code).map (fun row => (row.1, row.2.1)) = leaves t := by
  induction t with
  | nullptr => intro code; simp [leaves, leafRows]
  | mk data f left right ihl ihr =>
    intro code
    by_cases h : (left.isNull && right.isNull) = true
    · simp [leaves, leafRows, h]
    · simp only [leaves, leafRows, h, Bool.false_eq_true, if_false, List.map_append]
      rw [ihl, ihr, ihl, ihr]

theorem leaves_new (data : Byte) (f : Int) : leaves (Node.new data f) = [(data, f)] := by
  simp [leaves, leafRows_new]

theorem leaves_merge (data : Byte) (f : Int) (a b : Node) (ha : WellFormed a) :
    leaves (.mk data f a b) = leaves a ++ leaves b := by
  rw [← leafRows_labels _ [], leafRows_merge _ _ _ _ _ ha, List.map_append,
    leafRows_labels, leafRows_labels]

theorem wellFormed_new (data : Byte) (f : Int) : WellFormed (Node.new data f) := by
  simp [Node.new, WellFormed]

theorem forest_leafQueue (freq : List (Byte × Int)) : Forest freq (leafQueue freq) := by
  rw [leafQueue_eq]
  constructor
  · intro t ht
    obtain ⟨p, -, rfl⟩ := List.mem_map.1 ht
    exact wellFormed_new _ _
  · have : ∀ l : List (Byte × Int),
        (l.map (fun pair => Node.new pair.1 pair.2)).flatMap leaves = l := by
      intro l
      induction l with
      | nil => rfl
      | cons p l ih =>
        simp only [List.map_cons, List.flatMap_cons, leaves_new, ih]
        rfl
    rw [this]

theorem forest_perm (freq : List (Byte × Int)) (q q' : List Node) (hp : q.Perm q')
    (h : Forest freq q) : Forest freq q' := by
  constructor
  · intro t ht
    exact h.1 t (hp.symm.subset ht)
  · exact (List.Perm.flatMap_right leaves hp.symm).trans h.2

theorem forest_merge (freq : List (Byte × Int)) (a b : Node) (rest : List Node)
    (h : Forest freq (a :: b :: rest)) :
    Forest freq (rest ++ [Node.mk chrDollar (wrapInt (a.frequency + b.frequency)) a b]) := by
  have ha : WellFormed a := h.1 a (by simp)
  have hb : WellFormed b := h.1 b (by simp)
  constructor
  · intro t ht
    rcases List.mem_append.1 ht with ht | ht
    · exact h.1 t (by simp [ht])
    · simp only [List.mem_singleton] at ht
      subst ht
      unfold WellFormed
      exact Or.inr ⟨ha, hb, rfl⟩
  · refine List.Perm.trans ?_ h.2
    simp only [List.flatMap_append, List.flatMap_cons, List.flatMap_nil, List.append_nil,
      leaves_merge _ _ _ _ ha]
    refine List.perm_append_comm.trans ?_
    rw [List.append_assoc]

theorem forest_mergeLoop (freq : List (Byte × Int)) (fuel : Nat) (ties : List Nat)
    (pq : List Node) (h : Forest freq pq) : Forest freq (mergeLoop fuel ties pq) :=
  mergeLoop_invariant (Forest freq) (forest_perm freq) (forest_merge freq) fuel ties pq h

theorem leafQueue_ne_nil (text : List Byte) (h : text ≠ []) :
    leafQueue (countFreq text) ≠ [] := by
  rw [leafQueue_eq]
  simpa using countFreq_ne_nil text h

/-- The loop leaves exactly one tree in the queue, and `root` is that tree. -/
theorem mergeLoop_root (ties : List Nat) (text : List Byte) (h : text ≠ []) :
    mergeLoop (leafQueue (countFreq text)).length ties (leafQueue (countFreq text)) =
      [huffmanRoot ties text] := by
  have hlen := mergeLoop_length (leafQueue (countFreq text)).length ties
    (leafQueue (countFreq text)) (leafQueue_ne_nil text h) (by omega)
  obtain ⟨r, hr⟩ := List.length_eq_one.1 hlen
  simp only [huffmanRoot]
  rw [hr, pqTop_singleton]

/-- The root is a well-formed tree whose leaves are the entries of the frequency table. -/
theorem huffmanRoot_spec (ties : List Nat) (text : List Byte) (h : text ≠ []) :
    WellFormed (huffmanRoot ties text) ∧
      (leaves (huffmanRoot ties text)).Perm (countFreq text) := by
  have hf := forest_mergeLoop (countFreq text) (leafQueue (countFreq text)).length ties _
    (forest_leafQueue (countFreq text))
  rw [mergeLoop_root ties text h] at hf
  refine ⟨hf.1 _ (by simp), ?_⟩
  simpa using hf.2

theorem leafCodes_keys (t : Node) (code : List Byte) :
    (leafCodes t code).map Prod.fst = (leaves t).map Prod.fst := by
  rw [← leafRows_labels t code]
  simp [leafCodes]

/-- The code table of a non-empty text: one entry for every leaf of the tree, with
the path to the leaf as its code. -/
theorem buildHuffmanTree_eq (ties : List Nat) (text : List Byte) (h : text ≠ []) :
    buildHuffmanTree ties text [] = leafCodes (huffmanRoot ties text) [] := by
  have hne : text.isEmpty = false := by
    cases text with
    | nil => exact absurd rfl h
    | cons _ _ => rfl
  simp only [buildHuffmanTree, hne, Bool.false_eq_true, if_false]
  rw [generateCodes_eq]
  · simp
  · simp only [List.nil_append]
    rw [leafCodes_keys]
    exact ((huffmanRoot_spec ties text h).2.map Prod.fst).nodup_iff.2 (countFreq_keys_nodup text)

theorem buildHuffmanTree_nil (ties : List Nat) : buildHuffmanTree ties [] [] = [] := rfl

/-- The keys of the code table are the keys of the frequency table. -/
theorem buildHuffmanTree_keys (ties : List Nat) (text : List Byte) :
    ((buildHuffmanTree ties text []).map Prod.fst).Perm ((countFreq text).map Prod.fst) := by
  by_cases h : text = []
  · subst h
    simp [buildHuffmanTree_nil, countFreq]
  · rw [buildHuffmanTree_eq ties text h, leafCodes_keys]
    exact (huffmanRoot_spec ties text h).2.map Prod.fst

end Compressor

namespace Compressor

/-! ## The shape of the codes -/

/-- Every code recorded below a node starts with the path to that node and goes on
with characters `'0'` and `'1'` only. -/
theorem leafRows_path (t : Node) : ∀ (code : List Byte), ∀ row ∈ leafRows t code,
    ∃ path : List Byte, row.2.2 = code ++ path ∧ ∀ b ∈ path, b = chr0 ∨ b = chr1 := by
  induction t with
  | nullptr => intro code row h; simp [leafRows] at h
  | mk data f left right ihl ihr =>
    intro code row h
    by_cases hleaf : (left.isNull && right.isNull) = true
    · simp only [leafRows, hleaf, if_true, List.mem_singleton] at h
      subst h
      exact ⟨[], by simp, by simp⟩
    · simp only [leafRows, hleaf, Bool.false_eq_true, if_false, List.mem_append] at h
      rcases h with h | h
      · obtain ⟨path, hp, hb⟩ := ihl _ row h
        refine ⟨chr0 :: path, by simp [hp], ?_⟩
        intro b hbm
        rcases List.mem_cons.1 hbm with rfl | hbm
        · exact Or.inl rfl
        · exact hb b hbm
      · obtain ⟨path, hp, hb⟩ := ihr _ row h
        refine ⟨chr1 :: path, by simp [hp], ?_⟩
        intro b hbm
        rcases List.mem_cons.1 hbm with rfl | hbm
        · exact Or.inr rfl
        · exact hb b hbm

theorem unrelated_symm {α : Type} : Symmetric (fun u v : List α => Unrelated u v) :=
  fun _ _ h => ⟨h.2, h.1⟩

theorem unrelated_of_branch (code p q : List Byte) :
    Unrelated (code ++ chr0 :: p) (code ++ chr1 :: q) := by
  constructor
  · intro h
    rw [List.prefix_append_right_inj, List.cons_prefix_cons] at h
    exact absurd h.1 (by decide)
  · intro h
    rw [List.prefix_append_right_inj, List.cons_prefix_cons] at h
    exact absurd h.1 (by decide)

/-- The codes at different leaves of a tree: neither is the beginning of the other. -/
theorem leafRows_pairwise (t : Node) : ∀ (code : List Byte),
    (leafRows t code).Pairwise (fun r1 r2 => Unrelated r1.2.2 r2.2.2) := by
  induction t with
  | nullptr => intro code; simp [leafRows]
  | mk data f left right ihl ihr =>
    intro code
    by_cases hleaf : (left.isNull && right.isNull) = true
    · simp [leafRows, hleaf]
    · simp only [leafRows, hleaf, Bool.false_eq_true, if_false]
      rw [List.pairwise_append]
      refine ⟨ihl _, ihr _, ?_⟩
      intro r1 h1 r2 h2
      obtain ⟨p, hp, -⟩ := leafRows_path left _ r1 h1
      obtain ⟨q, hq, -⟩ := leafRows_path right _ r2 h2
      rw [hp, hq, List.append_assoc, List.append_assoc]
      exact unrelated_of_branch code p q

theorem leafCodes_pairwise (t : Node) (code : List Byte) :
    (leafCodes t code).Pairwise (fun e1 e2 => Unrelated e1.2 e2.2) := by
  unfold leafCodes
  rw [List.pairwise_map]
  exact leafRows_pairwise t code

/-- The code table is free of prefixes, entry against entry. -/
theorem buildHuffmanTree_pairwise (ties : List Nat) (text : List Byte) :
    (buildHuffmanTree ties text []).Pairwise (fun e1 e2 => Unrelated e1.2 e2.2) := by
  by_cases h : text = []
  · subst h
    simp [buildHuffmanTree_nil]
  · rw [buildHuffmanTree_eq ties text h]
    exact leafCodes_pairwise _ _

theorem buildHuffmanTree_nodup (ties : List Nat) (text : List Byte) :
    ((buildHuffmanTree ties text []).map Prod.fst).Nodup :=
  (buildHuffmanTree_keys ties text).nodup_iff.2 (countFreq_keys_nodup text)

theorem mem_buildHuffmanTree_keys (ties : List Nat) (text : List Byte) (c : Byte) :
    c ∈ (buildHuffmanTree ties text []).map Prod.fst ↔ c ∈ text := by
  rw [(buildHuffmanTree_keys ties text).mem_iff, mem_keys_countFreq]

theorem buildHuffmanTree_length (ties : List Nat) (text : List Byte) :
    (buildHuffmanTree ties text []).length = text.dedup.length := by
  have h1 := (buildHuffmanTree_keys ties text).length_eq
  have h2 := (countFreq_perm text).length_eq
  simp only [List.length_map] at h1 h2
  omega

/-- Every code of the table consists of the characters `'0'` and `'1'`. -/
theorem buildHuffmanTree_bits (ties : List Nat) (text : List Byte) :
    ∀ e ∈ buildHuffmanTree ties text [], ∀ b ∈ e.2, b = chr0 ∨ b = chr1 := by
  intro e he
  by_cases h : text = []
  · subst h
    simp [buildHuffmanTree_nil] at he
  · rw [buildHuffmanTree_eq ties text h] at he
    obtain ⟨row, hrow, rfl⟩ := List.mem_map.1 he
    obtain ⟨path, hp, hb⟩ := leafRows_path _ _ row hrow
    simp only [List.nil_append] at hp
    simp only [hp]
    exact hb

/-! ## Texts with one distinct character -/

theorem countFreq_replicate (n : Nat) (c : Byte) :
    countFreq (List.replicate (n + 1) c) = [(c, wrapInt ((n : Int) + 1))] := by
  induction n with
  | zero =>
    have h1 : wrapInt 1 = 1 := by decide
    simp [countFreq, incr, h1]
  | succ n ih =>
    rw [List.replicate_succ', countFreq_append, ih]
    simp only [incr, if_true, wrapInt_succ, Nat.cast_add, Nat.cast_one]

theorem huffmanRoot_replicate (ties : List Nat) (n : Nat) (c : Byte) :
    huffmanRoot ties (List.replicate (n + 1) c) = Node.new c (wrapInt ((n : Int) + 1)) := by
  simp only [huffmanRoot, countFreq_replicate, leafQueue_eq, List.map_cons, List.map_nil]
  rw [mergeLoop_done _ _ _ (by simp), pqTop_singleton]

/-- A text that repeats one character gets a table whose single code is empty. -/
theorem buildHuffmanTree_replicate (ties : List Nat) (n : Nat) (c : Byte) :
    buildHuffmanTree ties (List.replicate (n + 1) c) [] = [(c, [])] := by
  rw [buildHuffmanTree_eq ties _ (by simp [List.replicate_succ]), huffmanRoot_replicate]
  simp [leafCodes, leafRows_new]

end Compressor

namespace Compressor

/-! ## Kraft's inequality for prefix-free sets of bit strings -/

theorem kraftSum_nil (L : Nat) : kraftSum L [] = 0 := rfl

theorem kraftSum_cons (L l : Nat) (ls : List Nat) :
    kraftSum L (l :: ls) = 2 ^ (L - l) + kraftSum L ls := by
  simp [kraftSum]

theorem kraftSum_perm (L : Nat) {l1 l2 : List Nat} (h : l1.Perm l2) :
    kraftSum L l1 = kraftSum L l2 :=
  (h.map _).sum_eq

theorem pairCost_nil : pairCost [] = 0 := rfl

theorem pairCost_cons (p : Nat × Nat) (P : List (Nat × Nat)) :
    pairCost (p :: P) = p.1 * p.2 + pairCost P := by
  simp [pairCost]

theorem pairCost_perm {P Q : List (Nat × Nat)} (h : P.Perm Q) : pairCost P = pairCost Q :=
  (h.map _).sum_eq

theorem eq_singleton_of_nil_mem {α : Type} (cs : List (List α))
    (hp : cs.Pairwise (fun u v => Unrelated u v)) (h : [] ∈ cs) : cs = [[]] := by
  cases cs with
  | nil => simp at h
  | cons c cs' =>
    rw [List.pairwise_cons] at hp
    cases cs' with
    | nil => simpa using h
    | cons c2 cs2 =>
      exfalso
      rcases List.mem_cons.1 h with h | h
      · have := hp.1 c2 (by simp)
        rw [← h] at this
        exact this.1 List.nil_prefix
      · have := hp.1 [] h
        exact this.2 List.nil_prefix

theorem kraftSum_split (L : Nat) (cs : List (List Bool)) (h : [] ∉ cs) :
    kraftSum (L + 1) (cs.map List.length) =
      kraftSum L ((cs.filterMap (after false)).map List.length) +
        kraftSum L ((cs.filterMap (after true)).map List.length) := by
  induction cs with
  | nil => simp [kraftSum_nil]
  | cons c cs ih =>
    simp only [List.mem_cons, not_or] at h
    have ih := ih h.2
    cases c with
    | nil => exact absurd rfl h.1
    | cons x t =>
      cases x with
      | false =>
        simp only [List.map_cons, kraftSum_cons, List.length_cons, ih, after,
          List.filterMap_cons, if_true, Bool.false_eq_true, if_false]
        have : L + 1 - (t.length + 1) = L - t.length := by omega
        rw [this]
        ring
      | true =>
        simp only [List.map_cons, kraftSum_cons, List.length_cons, ih, after,
          List.filterMap_cons, if_true, Bool.true_eq_false, if_false]
        have : L + 1 - (t.length + 1) = L - t.length := by omega
        rw [this]
        ring

theorem pairwise_after (b : Bool) (cs : List (List Bool))
    (hp : cs.Pairwise (fun u v => Unrelated u v)) :
    (cs.filterMap (after b)).Pairwise (fun u v => Unrelated u v) := by
  refine List.Pairwise.filterMap (after b) ?_ hp
  intro u v huv u' hu v' hv
  cases u with
  | nil => simp [after] at hu
  | cons x t =>
    cases v with
    | nil => simp [after] at hv
    | cons y s =>
      simp only [after, Option.mem_def] at hu hv
      by_cases hx : x = b
      · by_cases hy : y = b
        · simp only [hx, hy, if_true, Option.some.injEq] at hu hv
          subst hu hv hx hy
          constructor
          · intro hpre
            exact huv.1 ((List.cons_prefix_cons).2 ⟨rfl, hpre⟩)
          · intro hpre
            exact huv.2 ((List.cons_prefix_cons).2 ⟨rfl, hpre⟩)
        · simp [hy] at hv
      · simp [hx] at hu

theorem length_after (b : Bool) (L : Nat) (cs : List (List Bool))
    (hl : ∀ c ∈ cs, c.length ≤ L + 1) : ∀ c ∈ cs.filterMap (after b), c.length ≤ L := by
  intro c hc
  obtain ⟨u, hu, huc⟩ := List.mem_filterMap.1 hc
  cases u with
  | nil => simp [after] at huc
  | cons x t =>
    by_cases hx : x = b
    · simp only [after, hx, if_true, Option.some.injEq] at huc
      subst huc
      have := hl _ hu
      simp only [List.length_cons] at this
      omega
    · simp [after, hx] at huc

/-- Kraft's inequality: the lengths of bit strings none of which is the beginning of
another satisfy `∑ 2 ^ (L - length) ≤ 2 ^ L`. -/
theorem kraft_of_unrelated (L : Nat) : ∀ cs : List (List Bool),
    cs.Pairwise (fun u v => Unrelated u v) → (∀ c ∈ cs, c.length ≤ L) →
    kraftSum L (cs.map List.length) ≤ 2 ^ L := by
  induction L with
  | zero =>
    intro cs hp hl
    cases cs with
    | nil => simp [kraftSum_nil]
    | cons c cs' =>
      have hc : c = [] := by
        have := hl c (by simp)
        exact List.length_eq_zero.1 (by omega)
      have := eq_singleton_of_nil_mem (c :: cs') hp (by simp [hc])
      rw [this]
      simp [kraftSum]
  | succ L ih =>
    intro cs hp hl
    by_cases hnil : [] ∈ cs
    · rw [eq_singleton_of_nil_mem cs hp hnil]
      simp [kraftSum]
    · rw [kraftSum_split L cs hnil]
      have h0 := ih _ (pairwise_after false cs hp) (length_after false L cs hl)
      have h1 := ih _ (pairwise_after true cs hp) (length_after true L cs hl)
      rw [pow_succ]
      omega

/-! ## The exchange argument on weights and lengths -/

/-- The item of least weight can take the greatest length without raising the cost. -/
theorem lift_max (a la : Nat) : ∀ (P : List (Nat × Nat)), (∀ p ∈ P, a ≤ p.1) →
    ∃ (la' : Nat) (P' : List (Nat × Nat)),
      P'.map Prod.fst = P.map Prod.fst ∧
      (la' :: P'.map Prod.snd).Perm (la :: P.map Prod.snd) ∧
      (∀ p ∈ P', p.2 ≤ la') ∧ la ≤ la' ∧
      a * la' + pairCost P' ≤ a * la + pairCost P := by
  intro P
  induction P with
  | nil =>
    intro _
    exact ⟨la, [], rfl, List.Perm.refl _, by simp, le_refl _, le_refl _⟩
  | cons p T ih =>
    intro ha
    obtain ⟨f, l⟩ := p
    have haf : a ≤ f := ha (f, l) (by simp)
    obtain ⟨la1, T1, hfst, hperm, hmax, hle, hcost⟩ :=
      ih (fun p hp => ha p (List.mem_cons_of_mem _ hp))
    by_cases hl : l ≤ la1
    · refine ⟨la1, (f, l) :: T1, by simp [hfst], ?_, ?_, hle, ?_⟩
      · simp only [List.map_cons]
        exact (List.Perm.swap _ _ _).trans ((hperm.cons l).trans (List.Perm.swap _ _ _))
      · intro p hp
        rcases List.mem_cons.1 hp with rfl | hp
        · exact hl
        · exact hmax p hp
      · simp only [pairCost_cons]
        omega
    · have hl' : la1 ≤ l := by omega
      refine ⟨l, (f, la1) :: T1, by simp [hfst], ?_, ?_, by omega, ?_⟩
      · simp only [List.map_cons]
        exact (hperm.cons l).trans (List.Perm.swap _ _ _)
      · intro p hp
        rcases List.mem_cons.1 hp with rfl | hp
        · exact hl'
        · exact le_trans (hmax p hp) hl'
      · simp only [pairCost_cons]
        obtain ⟨d, rfl⟩ := Nat.exists_eq_add_of_le haf
        obtain ⟨e, rfl⟩ := Nat.exists_eq_add_of_le hl'
        nlinarith [Nat.zero_le (d * e)]

theorem dvd_kraftSum (L m : Nat) (hm : m ≤ L) (ls : List Nat) (h : ∀ l ∈ ls, l ≤ m) :
    2 ^ (L - m) ∣ kraftSum L ls := by
  unfold kraftSum
  apply List.dvd_sum
  intro x hx
  obtain ⟨l, hl, rfl⟩ := List.mem_map.1 hx
  exact pow_dvd_pow 2 (by have := h l hl; omega)

theorem one_le_kraft_term (L l : Nat) : 1 ≤ 2 ^ (L - l) := Nat.one_le_two_pow

/-- Two items of least weight can be replaced by one item carrying the sum of their
weights: a length assignment that satisfies Kraft's inequality turns into one for the
new list whose cost is lower by at least the sum of the two weights. -/
theorem exchange (a b la lb : Nat) (P : List (Nat × Nat)) (hab : a ≤ b)
    (ha : ∀ p ∈ P, a ≤ p.1) (hb : ∀ p ∈ P, b ≤ p.1) (L : Nat)
    (hL : ∀ l ∈ la :: lb :: P.map Prod.snd, l ≤ L)
    (hk : kraftSum L (la :: lb :: P.map Prod.snd) ≤ 2 ^ L) :
    ∃ (lm : Nat) (P' : List (Nat × Nat)),
      P'.map Prod.fst = P.map Prod.fst ∧
      (∀ l ∈ lm :: P'.map Prod.snd, l ≤ L) ∧
      kraftSum L (lm :: P'.map Prod.snd) ≤ 2 ^ L ∧
      (a + b) * lm + pairCost P' + a + b ≤ a * la + b * lb + pairCost P := by
  -- the first item takes the greatest length
  obtain ⟨la', P1, hfst1, hperm1, hmax1, -, hcost1⟩ := lift_max a la ((b, lb) :: P) (by
    intro p hp
    rcases List.mem_cons.1 hp with rfl | hp
    · exact hab
    · exact ha p hp)
  cases P1 with
  | nil => simp at hfst1
  | cons p1 P2 =>
    obtain ⟨b', lb1⟩ := p1
    simp only [List.map_cons, List.cons.injEq] at hfst1
    obtain ⟨rfl, hfst2⟩ := hfst1
    -- the second item takes the greatest length of the rest
    obtain ⟨lb2, P3, hfst3, hperm3, hmax3, -, hcost3⟩ := lift_max b' lb1 P2 (by
      intro p hp
      have : p.1 ∈ P.map Prod.fst := by
        rw [← hfst2]
        exact List.mem_map.2 ⟨p, hp, rfl⟩
      obtain ⟨q, hq, hqp⟩ := List.mem_map.1 this
      rw [← hqp]
      exact hb q hq)
    have hperm : (la' :: lb2 :: P3.map Prod.snd).Perm (la :: lb :: P.map Prod.snd) := by
      refine (hperm3.cons la').trans ?_
      simpa using hperm1
    have hlb2 : lb2 ≤ la' := by
      have hmem : lb2 ∈ lb1 :: P2.map Prod.snd := hperm3.subset (by simp)
      rcases List.mem_cons.1 hmem with h | h
      · rw [h]
        exact hmax1 (b', lb1) (by simp)
      · obtain ⟨q, hq, rfl⟩ := List.mem_map.1 h
        exact hmax1 q (List.mem_cons_of_mem _ hq)
    have hL' : ∀ l ∈ la' :: lb2 :: P3.map Prod.snd, l ≤ L :=
      fun l hl => hL l (hperm.subset hl)
    have hla'L : la' ≤ L := hL' la' (by simp)
    have hlb2L : lb2 ≤ L := hL' lb2 (by simp)
    have hk' : 2 ^ (L - la') + (2 ^ (L - lb2) + kraftSum L (P3.map Prod.snd)) ≤ 2 ^ L := by
      rw [← kraftSum_cons, ← kraftSum_cons, kraftSum_perm L hperm]
      exact hk
    have hone := one_le_kraft_term L la'
    have hpos : 1 ≤ lb2 := by
      by_contra hzero
      have h0 : lb2 = 0 := by omega
      rw [h0] at hk'
      simp only [Nat.sub_zero] at hk'
      omega
    have hd1 : 2 ^ (L - lb2) ∣ kraftSum L (P3.map Prod.snd) := by
      apply dvd_kraftSum L lb2 hlb2L
      intro l hl
      obtain ⟨q, hq, rfl⟩ := List.mem_map.1 hl
      exact hmax3 q hq
    have hd2 : 2 ^ (L - lb2) ∣ 2 ^ L := pow_dvd_pow 2 (by omega)
    obtain ⟨x, hx⟩ := hd1
    obtain ⟨y, hy⟩ := hd2
    have hDpos : 0 < 2 ^ (L - lb2) := Nat.pos_of_ne_zero (by positivity)
    have hxy : x + 1 < y := by
      by_contra hcon
      have hle : y ≤ x + 1 := by omega
      have := Nat.mul_le_mul_left (2 ^ (L - lb2)) hle
      rw [← hy, Nat.mul_add, ← hx] at this
      omega
    have hfinal : 2 ^ (L - lb2) * (x + 2) ≤ 2 ^ (L - lb2) * y :=
      Nat.mul_le_mul_left _ (by omega)
    refine ⟨lb2 - 1, P3, hfst3.trans hfst2, ?_, ?_, ?_⟩
    · intro l hl
      rcases List.mem_cons.1 hl with rfl | hl
      · omega
      · exact hL' l (by simp [hl])
    · rw [kraftSum_cons]
      have he : L - (lb2 - 1) = (L - lb2) + 1 := by omega
      rw [he, pow_succ, hx, hy]
      rw [Nat.mul_add] at hfinal
      omega
    · simp only [pairCost_cons] at hcost1
      have h1 : (a + b') * (lb2 - 1) + a + b' = a * lb2 + b' * lb2 := by
        obtain ⟨k, rfl⟩ := Nat.exists_eq_add_of_le hpos
        simp only [Nat.add_sub_cancel_left]
        ring
      have h2 : a * lb2 ≤ a * la' := Nat.mul_le_mul_left _ hlb2
      omega

end Compressor

namespace Compressor

/-! ## The cost of the trees in the queue -/

theorem treeCost_shift (t : Node) : ∀ (code : List Byte),
    treeCost t code = treeCost t [] + leafSum t * (code.length : Int) := by
  induction t with
  | nullptr => intro code; simp [treeCost, leafRows, leafSum, leaves]
  | mk data f left right ihl ihr =>
    intro code
    by_cases h : (left.isNull && right.isNull) = true
    · simp [treeCost, leafSum, leaves, leafRows, h]
    · have hs : leafSum (.mk data f left right) = leafSum left + leafSum right := by
        simp only [leafSum, leaves, leafRows, h, Bool.false_eq_true, if_false, List.map_append,
          List.sum_append, List.map_map]
        have e1 := congrArg (fun l => (l.map Prod.snd).sum) (leafRows_labels left ([] ++ [chr0]))
        have e2 := congrArg (fun l => (l.map Prod.snd).sum) (leafRows_labels right ([] ++ [chr1]))
        simp only [List.map_map, leaves] at e1 e2
        rw [e1, e2]
      have hc : ∀ c : List Byte, treeCost (.mk data f left right) c =
          treeCost left (c ++ [chr0]) + treeCost right (c ++ [chr1]) := by
        intro c
        simp [treeCost, leafRows, h]
      rw [hc code, hc [], hs, ihl (code ++ [chr0]), ihr (code ++ [chr1]),
        ihl ([] ++ [chr0]), ihr ([] ++ [chr1])]
      simp only [List.length_append, List.length_singleton, List.length_nil]
      push_cast
      ring

theorem isNull_of_additive (t : Node) (h : Additive t) : t.isNull = false := by
  cases t with
  | nullptr => exact absurd h (by simp [Additive])
  | mk _ _ _ _ => rfl

theorem leaves_inner (data : Byte) (f : Int) (a b : Node) (ha : a.isNull = false) :
    leaves (.mk data f a b) = leaves a ++ leaves b := by
  have hr : ∀ code, leafRows (.mk data f a b) code =
      leafRows a (code ++ [chr0]) ++ leafRows b (code ++ [chr1]) := by
    intro code
    simp [leafRows, ha]
  rw [← leafRows_labels _ [], hr, List.map_append, leafRows_labels, leafRows_labels]

/-- In a tree with exact sums every node carries the sum of the frequencies at the
leaves below it. -/
theorem leafSum_eq_frequency (t : Node) (h : Additive t) : leafSum t = t.frequency := by
  induction t with
  | nullptr => exact absurd h (by simp [Additive])
  | mk data f left right ihl ihr =>
    unfold Additive at h
    rcases h with ⟨hl, hr⟩ | ⟨hl, hr, hf⟩
    · subst hl hr
      simp [leafSum, leaves, leafRows, Node.isNull, Node.frequency]
    · simp only [leafSum, leaves_inner _ _ _ _ (isNull_of_additive _ hl), List.map_append,
        List.sum_append]
      have e1 := ihl hl
      have e2 := ihr hr
      simp only [leafSum] at e1 e2
      rw [e1, e2, hf]
      rfl

theorem treeCost_merge (data : Byte) (f : Int) (a b : Node) (ha : Additive a)
    (hb : Additive b) :
    treeCost (.mk data f a b) [] = treeCost a [] + treeCost b [] + a.frequency + b.frequency := by
  have hc : treeCost (.mk data f a b) [] =
      treeCost a ([] ++ [chr0]) + treeCost b ([] ++ [chr1]) := by
    simp [treeCost, leafRows, isNull_of_additive a ha]
  rw [hc, treeCost_shift a, treeCost_shift b, leafSum_eq_frequency a ha,
    leafSum_eq_frequency b hb]
  simp only [List.nil_append, List.length_singleton]
  push_cast
  ring

theorem treeCost_new (data : Byte) (f : Int) : treeCost (Node.new data f) [] = 0 := by
  simp [treeCost, leafRows_new]

/-! ## Queues without overflow -/

theorem frequency_mk (data : Byte) (f : Int) (left right : Node) :
    (Node.mk data f left right).frequency = f := rfl

theorem bounded_perm (q q' : List Node) (hp : q.Perm q') (h : Bounded q) : Bounded q' := by
  refine ⟨fun t ht => h.1 t (hp.symm.subset ht), fun t ht => h.2.1 t (hp.symm.subset ht), ?_⟩
  rw [← (hp.map Node.frequency).sum_eq]
  exact h.2.2

theorem sum_frequency_nonneg (q : List Node) (h : ∀ t ∈ q, 0 ≤ t.frequency) :
    0 ≤ (q.map Node.frequency).sum := by
  apply List.sum_nonneg
  intro x hx
  obtain ⟨t, ht, rfl⟩ := List.mem_map.1 hx
  exact h t ht

/-- In a queue without overflow the sum of two frequencies is not wrapped. -/
theorem bounded_wrap (a b : Node) (rest : List Node) (h : Bounded (a :: b :: rest)) :
    wrapInt (a.frequency + b.frequency) = a.frequency + b.frequency := by
  have ha := h.2.1 a (by simp)
  have hb := h.2.1 b (by simp)
  have hrest := sum_frequency_nonneg rest (fun t ht => h.2.1 t (by simp [ht]))
  have hsum := h.2.2
  simp only [List.map_cons, List.sum_cons] at hsum
  exact wrapInt_of_bounds _ (by omega) (by omega)

theorem bounded_merge (a b : Node) (rest : List Node) (h : Bounded (a :: b :: rest)) :
    Bounded (rest ++ [Node.mk chrDollar (wrapInt (a.frequency + b.frequency)) a b]) := by
  have hw := bounded_wrap a b rest h
  have ha := h.2.1 a (by simp)
  have hb := h.2.1 b (by simp)
  refine ⟨?_, ?_, ?_⟩
  · intro t ht
    rcases List.mem_append.1 ht with ht | ht
    · exact h.1 t (by simp [ht])
    · simp only [List.mem_singleton] at ht
      subst ht
      unfold Additive
      exact Or.inr ⟨h.1 a (by simp), h.1 b (by simp), hw⟩
  · intro t ht
    rcases List.mem_append.1 ht with ht | ht
    · exact h.2.1 t (by simp [ht])
    · simp only [List.mem_singleton] at ht
      subst ht
      rw [frequency_mk, hw]
      omega
  · have hsum := h.2.2
    simp only [List.map_cons, List.sum_cons] at hsum
    simp only [List.map_append, List.map_cons, List.map_nil, List.sum_append, List.sum_cons,
      List.sum_nil, frequency_mk, hw]
    omega

theorem bounded_mergeLoop (fuel : Nat) (ties : List Nat) (pq : List Node) (h : Bounded pq) :
    Bounded (mergeLoop fuel ties pq) :=
  mergeLoop_invariant Bounded bounded_perm bounded_merge fuel ties pq h

/-- For a text shorter than `2 ^ 31` bytes the counts add up to its length. -/
theorem countFreq_sum (text : List Byte) (hlen : text.length < 2147483648) :
    ((countFreq text).map Prod.snd).sum = (text.length : Int) := by
  rw [((countFreq_perm_exact text hlen).map Prod.snd).sum_eq, List.map_map]
  have h := List.sum_map_count_dedup_eq_length text
  have hc : (text.dedup.map (Prod.snd ∘ fun s => (s, (text.count s : Int)))) =
      (text.dedup.map (fun s => text.count s)).map (fun n : Nat => (n : Int)) := by
    simp [List.map_map, Function.comp_def]
  rw [hc, ← Nat.cast_list_sum, h]

theorem countFreq_nonneg (text : List Byte) (hlen : text.length < 2147483648) :
    ∀ p ∈ countFreq text, p.2 = (text.count p.1 : Int) := by
  intro p hp
  obtain ⟨-, hn⟩ := (mem_countFreq text p.1 p.2).1 hp
  have : text.count p.1 ≤ text.length := List.count_le_length p.1 text
  rw [hn, wrapInt_natCast _ (by omega)]

/-- For a text shorter than `2 ^ 31` bytes the queue of leaves is without overflow. -/
theorem bounded_leafQueue (text : List Byte) (hlen : text.length < 2147483648) :
    Bounded (leafQueue (countFreq text)) := by
  rw [leafQueue_eq]
  refine ⟨?_, ?_, ?_⟩
  · intro t ht
    obtain ⟨p, -, rfl⟩ := List.mem_map.1 ht
    simp [Node.new, Additive]
  · intro t ht
    obtain ⟨p, hp, rfl⟩ := List.mem_map.1 ht
    simp only [Node.new, Node.frequency, countFreq_nonneg text hlen p hp]
    omega
  · have hs := countFreq_sum text hlen
    have hm : ((countFreq text).map (fun pair => Node.new pair.1 pair.2)).map Node.frequency =
        (countFreq text).map Prod.snd := by
      rw [List.map_map]
      apply List.map_congr_left
      intro p _
      rfl
    rw [hm, hs]
    omega

/-! ## Optimality of the merge loop -/

/-- From a list of pairs whose weights are `x :: W` up to order, one pair of weight
`x` can be taken out. -/
theorem extract_weight (P : List (Nat × Nat)) (x : Int) (W : List Int)
    (h : (P.map (fun p => (p.1 : Int))).Perm (x :: W)) :
    ∃ (w l : Nat) (P1 : List (Nat × Nat)), P.Perm ((w, l) :: P1) ∧ (w : Int) = x ∧
      (P1.map (fun p => (p.1 : Int))).Perm W := by
  have hx : x ∈ P.map (fun p => (p.1 : Int)) := h.symm.subset (by simp)
  obtain ⟨⟨w, l⟩, hp, hw⟩ := List.mem_map.1 hx
  simp only at hw
  refine ⟨w, l, _, List.perm_cons_erase hp, hw, ?_⟩
  have h2 := ((List.perm_cons_erase hp).map (fun p => (p.1 : Int))).symm.trans h
  simp only [List.map_cons, hw] at h2
  exact h2.cons_inv

/-- The merge loop is optimal as long as no `int` overflows: whatever lengths
satisfying Kraft's inequality are given to the trees of the queue, the tree the loop
ends with costs no more than the trees of the queue together with their weights times
these lengths. -/
theorem mergeLoop_optimal (fuel : Nat) :
    ∀ (ties : List Nat) (pq : List Node), Bounded pq →
    ∀ (P : List (Nat × Nat)) (L : Nat),
      (P.map (fun p => (p.1 : Int))).Perm (pq.map Node.frequency) →
      (∀ l ∈ P.map Prod.snd, l ≤ L) → kraftSum L (P.map Prod.snd) ≤ 2 ^ L →
      ((mergeLoop fuel ties pq).map (fun t => treeCost t [])).sum ≤
        (pq.map (fun t => treeCost t [])).sum + (pairCost P : Int) := by
  induction fuel with
  | zero =>
    intro ties pq _ P L _ _ _
    simp only [mergeLoop]
    have : (0 : Int) ≤ (pairCost P : Int) := Int.ofNat_nonneg _
    omega
  | succ n ih =>
    intro ties pq hB P L hW hL hK
    by_cases hlen : 1 < pq.length
    · obtain ⟨a, b, rest, hp, hmina, hminb, heq⟩ := mergeLoop_step n ties pq hlen
      rw [heq]
      have hB1 : Bounded (a :: b :: rest) := bounded_perm _ _ hp hB
      have hB2 := bounded_merge a b rest hB1
      have hw := bounded_wrap a b rest hB1
      have hAa : Additive a := hB1.1 a (by simp)
      have hAb : Additive b := hB1.1 b (by simp)
      -- the lengths given to `a` and `b`
      have hW1 : (P.map (fun p => (p.1 : Int))).Perm
          (a.frequency :: b.frequency :: rest.map Node.frequency) := by
        simpa using hW.trans (hp.map Node.frequency)
      obtain ⟨wa, la, P1, hP1, hwa, hW2⟩ := extract_weight P _ _ hW1
      obtain ⟨wb, lb, P2, hP2, hwb, hW3⟩ := extract_weight P1 _ _ hW2
      have hPP : P.Perm ((wa, la) :: (wb, lb) :: P2) := hP1.trans (hP2.cons _)
      have hsnd : (P.map Prod.snd).Perm (la :: lb :: P2.map Prod.snd) := by
        simpa using hPP.map Prod.snd
      have hmem : ∀ p ∈ P2, ∃ t ∈ rest, t.frequency = (p.1 : Int) := by
        intro p hp2
        have : (p.1 : Int) ∈ rest.map Node.frequency :=
          hW3.subset (List.mem_map.2 ⟨p, hp2, rfl⟩)
        obtain ⟨t, ht, hte⟩ := List.mem_map.1 this
        exact ⟨t, ht, hte⟩
      obtain ⟨lm, P', hfst, hL', hK', hcost⟩ := exchange wa wb la lb P2
        (by
          have := hmina b (hp.symm.subset (by simp))
          rw [← hwa, ← hwb] at this
          exact_mod_cast this)
        (by
          intro p hp2
          obtain ⟨t, ht, hte⟩ := hmem p hp2
          have := hmina t (hp.symm.subset (by simp [ht]))
          rw [← hwa, hte] at this
          exact_mod_cast this)
        (by
          intro p hp2
          obtain ⟨t, ht, hte⟩ := hmem p hp2
          have := hminb t ht
          rw [← hwb, hte] at this
          exact_mod_cast this)
        L (fun l hl => hL l (hsnd.symm.subset hl))
        (by rw [← kraftSum_perm L hsnd]; exact hK)
      have hfst' : P'.map (fun p => (p.1 : Int)) = P2.map (fun p => (p.1 : Int)) := by
        have := congrArg (List.map (fun n : Nat => (n : Int))) hfst
        simpa [List.map_map, Function.comp_def] using this
      have hih := ih ties.tail.tail _ hB2 ((wa + wb, lm) :: P') L
        (by
          simp only [List.map_cons, List.map_append, List.map_nil, frequency_mk, hfst', hw]
          push_cast
          rw [hwa, hwb]
          exact (hW3.cons _).trans (List.perm_append_singleton _ _).symm)
        (by simpa using hL') (by simpa using hK')
      have hsum : (pq.map (fun t => treeCost t [])).sum =
          treeCost a [] + (treeCost b [] + (rest.map (fun t => treeCost t [])).sum) := by
        rw [(hp.map (fun t => treeCost t [])).sum_eq]
        simp
      have hcostP : pairCost P = wa * la + (wb * lb + pairCost P2) := by
        rw [pairCost_perm hPP]
        simp [pairCost_cons]
      simp only [List.map_append, List.map_cons, List.map_nil, List.sum_append, List.sum_cons,
        List.sum_nil, treeCost_merge _ _ _ _ hAa hAb, pairCost_cons] at hih
      rw [hsum, hcostP]
      have hcost' : (((wa + wb) * lm + pairCost P' + wa + wb : Nat) : Int) ≤
          ((wa * la + wb * lb + pairCost P2 : Nat) : Int) := by exact_mod_cast hcost
      push_cast at hih hcost' ⊢
      linarith
    · rw [mergeLoop_done _ _ _ (by omega)]
      have : (0 : Int) ≤ (pairCost P : Int) := Int.ofNat_nonneg _
      omega

end Compressor

namespace Compressor

/-! ## The encoded length of a text -/

theorem exists_length_bound {α : Type} (cs : List (List α)) :
    ∃ L, ∀ c ∈ cs, c.length ≤ L := by
  induction cs with
  | nil => exact ⟨0, by simp⟩
  | cons c cs ih =>
    obtain ⟨L, hL⟩ := ih
    refine ⟨max c.length L, ?_⟩
    intro x hx
    rcases List.mem_cons.1 hx with rfl | hx
    · exact le_max_left _ _
    · exact le_trans (hL x hx) (le_max_right _ _)

/-- For a text shorter than `2 ^ 31` bytes a sum over the distinct characters of the
text is a sum over the frequency table. -/
theorem sum_dedup_eq (text : List Byte) (hlen : text.length < 2147483648)
    (g : Byte → Int → Int) :
    (text.dedup.map (fun s => g s (text.count s))).sum =
      ((countFreq text).map (fun p => g p.1 p.2)).sum := by
  have h := ((countFreq_perm_exact text hlen).map (fun p => g p.1 p.2)).sum_eq
  rw [h]
  simp [List.map_map, Function.comp_def]

theorem cast_sum_map {α : Type} (l : List α) (g : α → Nat) :
    (((l.map g).sum : Nat) : Int) = (l.map (fun x => (g x : Int))).sum := by
  rw [Nat.cast_list_sum, List.map_map]
  rfl

/-- The code stored for the character of a leaf is the path to that leaf. -/
theorem codeAt_row (ties : List Nat) (text : List Byte) (h : text ≠ [])
    (row : Byte × Int × List Byte) (hrow : row ∈ leafRows (huffmanRoot ties text) []) :
    codeAt (buildHuffmanTree ties text []) row.1 = row.2.2 := by
  have hmem : (row.1, row.2.2) ∈ buildHuffmanTree ties text [] := by
    rw [buildHuffmanTree_eq ties text h]
    exact List.mem_map.2 ⟨row, hrow, rfl⟩
  simp [codeAt, find_of_mem _ _ _ (buildHuffmanTree_nodup ties text) hmem]

/-- For a text shorter than `2 ^ 31` bytes the number of bits of the encoded text is
the cost of the tree. -/
theorem encoded_length_eq (ties : List Nat) (text : List Byte) (h : text ≠ [])
    (hlen : text.length < 2147483648) :
    (((text.dedup.map (fun s =>
        text.count s * (codeAt (buildHuffmanTree ties text []) s).length)).sum : Nat) : Int) =
      treeCost (huffmanRoot ties text) [] := by
  rw [cast_sum_map]
  have hg := sum_dedup_eq text hlen
    (fun s n => n * ((codeAt (buildHuffmanTree ties text []) s).length : Int))
  simp only [Nat.cast_mul]
  rw [hg]
  have hperm := (huffmanRoot_spec ties text h).2
  rw [← (hperm.map
    (fun p => p.2 * ((codeAt (buildHuffmanTree ties text []) p.1).length : Int))).sum_eq]
  simp only [leaves, List.map_map, treeCost]
  congr 1
  apply List.map_congr_left
  intro row hrow
  simp [Function.comp_def, codeAt_row ties text h row hrow]

/-- The tree built for a text shorter than `2 ^ 31` bytes costs no more than any
assignment of lengths to the entries of the frequency table that satisfies Kraft's
inequality. -/
theorem huffmanRoot_optimal (ties : List Nat) (text : List Byte) (h : text ≠ [])
    (hlen : text.length < 2147483648)
    (len : Byte → Nat) (L : Nat) (hL : ∀ s ∈ text, len s ≤ L)
    (hK : kraftSum L ((countFreq text).map (fun p => len p.1)) ≤ 2 ^ L) :
    treeCost (huffmanRoot ties text) [] ≤
      ((countFreq text).map (fun p => p.2 * (len p.1 : Int))).sum := by
  have hnn : ∀ p ∈ countFreq text, ((p.2.toNat : Nat) : Int) = p.2 := by
    intro p hp
    rw [countFreq_nonneg text hlen p hp]
    simp
  have hopt := mergeLoop_optimal (leafQueue (countFreq text)).length ties
    (leafQueue (countFreq text)) (bounded_leafQueue text hlen)
    ((countFreq text).map (fun p => (p.2.toNat, len p.1))) L
    (by
      rw [leafQueue_eq]
      simp only [List.map_map]
      exact List.Perm.of_eq (List.map_congr_left (fun p hp => hnn p hp)))
    (by
      intro l hl
      simp only [List.map_map, List.mem_map, Function.comp_apply] at hl
      obtain ⟨p, hp, rfl⟩ := hl
      exact hL p.1 ((mem_keys_countFreq text p.1).1 (List.mem_map.2 ⟨p, hp, rfl⟩)))
    (by simpa [List.map_map, Function.comp_def] using hK)
  rw [mergeLoop_root ties text h] at hopt
  have hzero : ((leafQueue (countFreq text)).map (fun t => treeCost t [])).sum = 0 := by
    rw [leafQueue_eq]
    simp [List.map_map, Function.comp_def, treeCost_new]
  rw [hzero] at hopt
  have hcost : ((pairCost ((countFreq text).map (fun p => (p.2.toNat, len p.1))) : Nat) : Int) =
      ((countFreq text).map (fun p => p.2 * (len p.1 : Int))).sum := by
    unfold pairCost
    rw [List.map_map, cast_sum_map]
    congr 1
    apply List.map_congr_left
    intro p hp
    simp only [Function.comp_apply, Nat.cast_mul, hnn p hp]
  rw [hcost] at hopt
  simpa using hopt

/-- For a text shorter than `2 ^ 31` bytes no sum in the tree overflows. -/
theorem huffmanRoot_additive (ties : List Nat) (text : List Byte) (h : text ≠ [])
    (hlen : text.length < 2147483648) : Additive (huffmanRoot ties text) := by
  have hb := bounded_mergeLoop (leafQueue (countFreq text)).length ties _
    (bounded_leafQueue text hlen)
  rw [mergeLoop_root ties text h] at hb
  exact hb.1 _ (by simp)

end Compressor

namespace Compressor

/-! ## Bit sets -/

theorem isBits_nil : IsBits [] := by
  intro b hb
  simp at hb

theorem isBits_append {s t : List Byte} (hs : IsBits s) (ht : IsBits t) : IsBits (s ++ t) := by
  intro b hb
  rcases List.mem_append.1 hb with h | h
  · exact hs b h
  · exact ht b h

theorem isBits_take {s : List Byte} (n : Nat) (hs : IsBits s) : IsBits (s.take n) :=
  fun b hb => hs b (List.mem_of_mem_take hb)

theorem isBits_drop {s : List Byte} (n : Nat) (hs : IsBits s) : IsBits (s.drop n) :=
  fun b hb => hs b (List.mem_of_mem_drop hb)

theorem isBits_replicate (n : Nat) : IsBits (List.replicate n chr0) := by
  intro b hb
  exact Or.inl (List.eq_of_mem_replicate hb)

theorem bitsetOfString_eq (s : List Byte) (hs : IsBits s) :
    bitsetOfString s = some (binaryValue (s.take 8)) := by
  have : s.all (fun c => c = chr0 || c = chr1) = true := by
    rw [List.all_eq_true]
    intro b hb
    rcases hs b hb with h | h <;> simp [h]
  simp [bitsetOfString, this]

theorem binaryValue_append (s : List Byte) (c : Byte) :
    binaryValue (s ++ [c]) = 2 * binaryValue s + (if c = chr1 then 1 else 0) := by
  simp [binaryValue, List.foldl_append]

theorem binaryValue_lt (s : List Byte) : binaryValue s < 2 ^ s.length := by
  induction s using List.reverseRecOn with
  | nil => simp [binaryValue]
  | append_singleton s c ih =>
    rw [binaryValue_append, List.length_append, List.length_singleton, pow_succ]
    split <;> omega

theorem bitsOfNat_binaryValue (s : List Byte) (hs : IsBits s) :
    bitsOfNat s.length (binaryValue s) = s := by
  induction s using List.reverseRecOn with
  | nil => rfl
  | append_singleton s c ih =>
    have hs' : IsBits s := fun b hb => hs b (List.mem_append_left _ hb)
    have hc : c = chr0 ∨ c = chr1 := hs c (by simp)
    rw [binaryValue_append, List.length_append, List.length_singleton]
    simp only [bitsOfNat]
    rcases hc with rfl | rfl
    · have h01 : ¬ chr0 = chr1 := by decide
      simp only [h01, if_false, Nat.add_zero]
      rw [Nat.mul_div_cancel_left _ (by norm_num : 0 < 2), ih hs']
      simp
    · simp only [if_true]
      have h1 : (2 * binaryValue s + 1) / 2 = binaryValue s := by omega
      have h2 : (2 * binaryValue s + 1) % 2 = 1 := by omega
      rw [h1, h2, ih hs']
      simp

theorem binaryValue_replicate (n : Nat) (s : List Byte) :
    binaryValue (List.replicate n chr0 ++ s) = binaryValue s := by
  have hz : ∀ n, List.foldl (fun acc c => 2 * acc + (if c = chr1 then 1 else 0)) 0
      (List.replicate n chr0) = 0 := by
    intro n
    induction n with
    | zero => rfl
    | succ n ih =>
      rw [List.replicate_succ', List.foldl_append, ih]
      simp only [List.foldl_cons, List.foldl_nil]
      have h01 : ¬ chr0 = chr1 := by decide
      simp [h01]
  simp only [binaryValue, List.foldl_append, hz]

theorem bitsetToString_eq (byte : Byte) : bitsetToString byte = bitsOfNat 8 byte.val := by
  simp only [bitsetToString, bitsOfNat, List.range_succ, List.range_zero, List.nil_append,
    List.map_append, List.map_cons, List.map_nil, List.cons_append, Nat.div_div_eq_div_mul]
  norm_num

/-- Writing the value of at most 8 bits as a byte and expanding the byte gives the
bits back, preceded by zeros that fill the 8 places. -/
theorem bitsetToString_binaryValue (s : List Byte) (hs : IsBits s) (hlen : s.length ≤ 8) :
    bitsetToString (Fin.ofNat (binaryValue s)) = List.replicate (8 - s.length) chr0 ++ s := by
  have hlt : binaryValue s < 256 := by
    have h1 := binaryValue_lt s
    have h2 : 2 ^ s.length ≤ 2 ^ 8 := Nat.pow_le_pow_right (by norm_num) hlen
    omega
  have hval : (Fin.ofNat (binaryValue s) : Byte).val = binaryValue s := by
    simp [Fin.ofNat, Nat.mod_eq_of_lt hlt]
  rw [bitsetToString_eq, hval, ← binaryValue_replicate (8 - s.length) s]
  have hl : (List.replicate (8 - s.length) chr0 ++ s).length = 8 := by
    simp only [List.length_append, List.length_replicate]
    omega
  have := bitsOfNat_binaryValue (List.replicate (8 - s.length) chr0 ++ s)
    (isBits_append (isBits_replicate _) hs)
  rw [hl] at this
  exact this

theorem bitsetToString_length (byte : Byte) : (bitsetToString byte).length = 8 := by
  simp [bitsetToString]

theorem readBits_append (a b : List Byte) : readBits (a ++ b) = readBits a ++ readBits b := by
  simp [readBits]

theorem readBits_length (payload : List Byte) : (readBits payload).length = 8 * payload.length := by
  induction payload with
  | nil => rfl
  | cons b rest ih =>
    have : readBits (b :: rest) = bitsetToString b ++ readBits rest := rfl
    rw [this, List.length_append, bitsetToString_length, ih, List.length_cons]
    omega

theorem isBits_bitsetToString (byte : Byte) : IsBits (bitsetToString byte) := by
  intro b hb
  simp only [bitsetToString, List.mem_map] at hb
  obtain ⟨i, -, rfl⟩ := hb
  split
  · exact Or.inr rfl
  · exact Or.inl rfl

/-! ## The packing loops -/

/-- The inner loop writes the leading groups of 8 bits as bytes and keeps fewer than
8 bits. -/
theorem drain_spec (fuel : Nat) : ∀ (bits out : List Byte), IsBits bits →
    bits.length ≤ 8 * fuel + 7 →
    ∃ bits' out', drain fuel bits out = some (bits', out') ∧
      readBits out' ++ bits' = readBits out ++ bits ∧ bits'.length < 8 ∧ IsBits bits' ∧
      8 * out'.length + bits'.length = 8 * out.length + bits.length := by
  induction fuel with
  | zero =>
    intro bits out hb hlen
    exact ⟨bits, out, rfl, rfl, by omega, hb, rfl⟩
  | succ n ih =>
    intro bits out hb hlen
    by_cases h8 : bits.length ≥ 8
    · have htake : IsBits (bits.take 8) := isBits_take 8 hb
      have hl8 : (bits.take 8).length = 8 := by
        rw [List.length_take]
        omega
      have hbs : bitsetOfString (bits.take 8) = some (binaryValue (bits.take 8)) := by
        rw [bitsetOfString_eq _ htake, List.take_take]
        simp
      obtain ⟨bits', out', hd, hr, hl, hb', hcount⟩ := ih (bits.drop 8)
        (out ++ [Fin.ofNat (binaryValue (bits.take 8))]) (isBits_drop 8 hb) (by
          rw [List.length_drop]
          omega)
      refine ⟨bits', out', ?_, ?_, hl, hb', ?_⟩
      · simp only [drain, h8, if_true, hbs]
        exact hd
      · rw [hr, readBits_append]
        have : readBits [Fin.ofNat (binaryValue (bits.take 8))] = bits.take 8 := by
          simp only [readBits, List.flatMap_cons, List.flatMap_nil, List.append_nil]
          rw [bitsetToString_binaryValue _ htake (by omega), hl8]
          simp
        rw [this, List.append_assoc, List.take_append_drop]
      · rw [hcount, List.length_append, List.length_drop, List.length_singleton]
        omega
    · refine ⟨bits, out, ?_, rfl, by omega, hb, rfl⟩
      simp [drain, h8]

/-- The loop over the text appends the code of every character; all complete groups of
8 bits are written and fewer than 8 bits remain in `compressedBits`. -/
theorem packText_spec (codes : List (Byte × List Byte)) (hc : ∀ c, IsBits (codeAt codes c)) :
    ∀ (text : List Byte) (state : List Byte × List Byte), IsBits state.1 →
    state.1.length < 8 →
    ∃ bits' out', packText codes text state = some (bits', out') ∧
      readBits out' ++ bits' = readBits state.2 ++ state.1 ++ text.flatMap (codeAt codes) ∧
      bits'.length < 8 ∧ IsBits bits' ∧
      8 * out'.length + bits'.length =
        8 * state.2.length + state.1.length + (text.flatMap (codeAt codes)).length := by
  intro text
  induction text with
  | nil =>
    intro state hb hl
    exact ⟨state.1, state.2, rfl, by simp, hl, hb, by simp⟩
  | cons c text ih =>
    intro state hb hl
    obtain ⟨bits1, out1, hd, hr, hl1, hb1, hcount1⟩ :=
      drain_spec (state.1 ++ codeAt codes c).length (state.1 ++ codeAt codes c) state.2
        (isBits_append hb (hc c)) (by omega)
    obtain ⟨bits', out', hp, hr', hl', hb', hcount'⟩ := ih (bits1, out1) hb1 hl1
    refine ⟨bits', out', ?_, ?_, hl', hb', ?_⟩
    · simp only [packText, packChar, hd]
      exact hp
    · rw [hr']
      simp only [List.flatMap_cons]
      rw [hr]
      simp only [List.append_assoc]
    · rw [hcount']
      simp only [List.flatMap_cons, List.length_append] at hcount1 ⊢
      omega

/-- The payload of `compressFile`, read back bit by bit: the complete groups of 8
bits of the encoded text and then, when bits remain, one byte that holds zeros first
and the remaining bits last. -/
theorem packPayload_spec (codes : List (Byte × List Byte)) (hc : ∀ c, IsBits (codeAt codes c))
    (text : List Byte) :
    ∃ payload, packPayload codes text = some payload ∧
      payload.length = ((encodedBits codes text).length + 7) / 8 ∧
      readBits payload =
        (encodedBits codes text).take (8 * ((encodedBits codes text).length / 8)) ++
          (if (encodedBits codes text).length % 8 = 0 then []
           else List.replicate (8 - (encodedBits codes text).length % 8) chr0 ++
             (encodedBits codes text).drop (8 * ((encodedBits codes text).length / 8))) := by
  obtain ⟨bits', out', hp, hr, hl, hb, hcount⟩ :=
    packText_spec codes hc text ([], []) isBits_nil (by simp)
  simp only [readBits, List.flatMap_nil, List.nil_append, List.length_nil, Nat.mul_zero,
    Nat.zero_add] at hr hcount
  change readBits out' ++ bits' = encodedBits codes text at hr
  change 8 * out'.length + bits'.length = (encodedBits codes text).length at hcount
  have hq : (encodedBits codes text).length / 8 = out'.length := by omega
  have hm : (encodedBits codes text).length % 8 = bits'.length := by omega
  have htake : (encodedBits codes text).take (8 * out'.length) = readBits out' := by
    rw [← hr, ← readBits_length out', List.take_left']
    rfl
  have hdrop : (encodedBits codes text).drop (8 * out'.length) = bits' := by
    rw [← hr, ← readBits_length out', List.drop_left']
    rfl
  rw [hq, hm, htake, hdrop]
  by_cases he : bits' = []
  · subst he
    refine ⟨out', ?_, ?_, ?_⟩
    · simp [packPayload, hp]
    · simp only [List.length_nil] at hcount
      omega
    · simp
  · have hpos : 0 < bits'.length := List.length_pos.2 he
    have hemp : bits'.isEmpty = false := by
      cases bits' with
      | nil => exact absurd rfl he
      | cons _ _ => rfl
    have hbs : bitsetOfString bits' = some (binaryValue bits') := by
      rw [bitsetOfString_eq _ hb, List.take_of_length_le (by omega)]
    refine ⟨out' ++ [Fin.ofNat (binaryValue bits')], ?_, ?_, ?_⟩
    · simp [packPayload, hp, hemp, hbs]
    · rw [List.length_append, List.length_singleton]
      omega
    · have hne : ¬ bits'.length = 0 := by omega
      rw [readBits_append]
      simp only [hne, if_false]
      congr 1
      simp only [readBits, List.flatMap_cons, List.flatMap_nil, List.append_nil]
      exact bitsetToString_binaryValue _ hb (by omega)

end Compressor

namespace Compressor

/-! ## Reading back what `compressFile` writes -/

theorem sizeBytes_length (n : Nat) : (sizeBytes n).length = 8 := by
  simp [sizeBytes]

theorem sizeOfBytes_sizeBytes (n : Nat) (h : n < 2 ^ 64) : sizeOfBytes (sizeBytes n) = n := by
  simp only [sizeBytes, sizeOfBytes, List.range_succ, List.range_zero, List.nil_append,
    List.map_append, List.map_cons, List.map_nil, List.cons_append, List.foldr_cons,
    List.foldr_nil, Fin.ofNat, Fin.val_mk]
  norm_num at h ⊢
  omega

theorem readSize_sizeBytes (n : Nat) (h : n < 2 ^ 64) (rest : List Byte) :
    readSize (sizeBytes n ++ rest) = some (n, rest) := by
  have hl := sizeBytes_length n
  have h1 : ¬ (sizeBytes n ++ rest).length < 8 := by
    rw [List.length_append, hl]
    omega
  have h2 : (sizeBytes n ++ rest).take 8 = sizeBytes n := by
    rw [← hl, List.take_left']
    rfl
  have h3 : (sizeBytes n ++ rest).drop 8 = rest := by
    rw [← hl, List.drop_left']
    rfl
  simp only [readSize, h1, if_false, h2, h3, sizeOfBytes_sizeBytes n h]

theorem writeTable_eq (entries : List (Byte × List Byte)) :
    writeTable entries = sizeBytes (entries.length % 2 ^ 64) ++ entries.flatMap writeEntry := rfl

theorem readTable_write (entries : List (Byte × List Byte))
    (hlen : ∀ e ∈ entries, e.2.length < 2 ^ 64) :
    ∀ (reverseCodes : List (List Byte × Byte)) (rest : List Byte),
    readTable entries.length (entries.flatMap writeEntry ++ rest) reverseCodes =
      some (entries.foldl (fun rc pair => assign rc pair.2 pair.1) reverseCodes, rest) := by
  induction entries with
  | nil => intro rc rest; rfl
  | cons e entries ih =>
    intro rc rest
    have he : e.2.length < 2 ^ 64 := hlen e (by simp)
    have hmod : e.2.length % 2 ^ 64 = e.2.length := Nat.mod_eq_of_lt he
    simp only [List.flatMap_cons, writeEntry, List.length_cons, List.cons_append,
      List.append_assoc, readTable, hmod]
    rw [readSize_sizeBytes _ he]
    have h1 : ¬ (e.2 ++ (entries.flatMap writeEntry ++ rest)).length < e.2.length := by
      rw [List.length_append]
      omega
    simp only [h1, if_false, List.take_left', List.drop_left', List.foldl_cons]
    exact ih (fun x hx => hlen x (List.mem_cons_of_mem _ hx)) _ _

/-- A table written by `compressFile` and followed by any bytes is read back entry by
entry, and the bytes that follow are the payload. -/
theorem readHeader_writeTable (entries : List (Byte × List Byte)) (payload : List Byte)
    (hn : entries.length < 2 ^ 64) (hlen : ∀ e ∈ entries, e.2.length < 2 ^ 64) :
    readHeader (writeTable entries ++ payload) = some (reverseTable entries, payload) := by
  rw [writeTable_eq, Nat.mod_eq_of_lt hn, List.append_assoc]
  simp only [readHeader, readSize_sizeBytes _ hn]
  exact readTable_write entries hlen [] payload

theorem decompressFile_writeTable (entries : List (Byte × List Byte)) (payload : List Byte)
    (hn : entries.length < 2 ^ 64) (hlen : ∀ e ∈ entries, e.2.length < 2 ^ 64) :
    decompressFile (writeTable entries ++ payload) =
      some (decodeBits (reverseTable entries) (readBits payload)).2 := by
  simp only [decompressFile, readHeader_writeTable entries payload hn hlen]

/-! ## The iteration order -/

theorem insertAt_perm {α : Type} (x : α) : ∀ (i : Nat) (l : List α),
    (insertAt i x l).Perm (x :: l) := by
  intro i l
  induction l generalizing i with
  | nil => cases i <;> simp [insertAt]
  | cons y l ih =>
    cases i with
    | zero => simp [insertAt]
    | succ i =>
      simp only [insertAt]
      exact ((ih i).cons y).trans (List.Perm.swap x y l)

theorem iterate_perm {α : Type} : ∀ (order : List Nat) (l : List α),
    (iterate order l).Perm l := by
  intro order l
  induction l generalizing order with
  | nil => simp [iterate]
  | cons x l ih =>
    simp only [iterate]
    exact (insertAt_perm x _ _).trans ((ih _).cons x)

theorem insertAt_length_append {α : Type} (x : α) (s t : List α) :
    insertAt s.length x (s ++ t) = s ++ x :: t := by
  induction s with
  | nil => rfl
  | cons y s ih =>
    show y :: insertAt s.length x (s ++ t) = y :: (s ++ x :: t)
    rw [ih]

/-- Every rearrangement of the entries is the iteration order for some `order`. -/
theorem iterate_reaches {α : Type} (l : List α) : ∀ (l' : List α), l'.Perm l →
    ∃ order, iterate order l = l' := by
  induction l with
  | nil =>
    intro l' h
    exact ⟨[], by simp [iterate, h.eq_nil]⟩
  | cons x l ih =>
    intro l' h
    have hx : x ∈ l' := h.symm.subset (by simp)
    obtain ⟨s, t, rfl⟩ := List.append_of_mem hx
    have hp : (s ++ t).Perm l := by
      have := (List.perm_middle.symm.trans h)
      exact this.cons_inv
    obtain ⟨o, ho⟩ := ih _ hp
    refine ⟨s.length :: o, ?_⟩
    simp only [iterate, List.headD_cons, List.tail_cons, ho, insertAt_length_append]

/-! ## Bounds on the table -/

theorem leafRows_ne_nil (t : Node) (h : WellFormed t) (code : List Byte) :
    leafRows t code ≠ [] := by
  induction t generalizing code with
  | nullptr => exact absurd h (by simp [WellFormed])
  | mk data f left right ihl _ =>
    unfold WellFormed at h
    rcases h with ⟨hl, hr⟩ | ⟨hl, -, -⟩
    · subst hl hr
      simp [leafRows, Node.isNull]
    · rw [leafRows_merge _ _ _ _ _ hl]
      simp [ihl hl]

theorem leafRows_length (t : Node) (code code' : List Byte) :
    (leafRows t code).length = (leafRows t code').length := by
  have h1 := congrArg List.length (leafRows_labels t code)
  have h2 := congrArg List.length (leafRows_labels t code')
  simp only [List.length_map] at h1 h2
  omega

/-- A path in a well-formed tree is shorter than the number of leaves. -/
theorem leafRows_depth (t : Node) (h : WellFormed t) : ∀ (code : List Byte),
    ∀ row ∈ leafRows t code, row.2.2.length + 1 ≤ code.length + (leafRows t code).length := by
  induction t with
  | nullptr => exact absurd h (by simp [WellFormed])
  | mk data f left right ihl ihr =>
    intro code row hrow
    unfold WellFormed at h
    rcases h with ⟨hl, hr⟩ | ⟨hl, hr, -⟩
    · subst hl hr
      simp only [leafRows, Node.isNull, Bool.and_self, if_true, List.mem_singleton] at hrow
      subst hrow
      simp [leafRows, Node.isNull]
    · rw [leafRows_merge _ _ _ _ _ hl] at hrow ⊢
      have nl : 0 < (leafRows left (code ++ [chr0])).length :=
        List.length_pos.2 (leafRows_ne_nil left hl _)
      have nr : 0 < (leafRows right (code ++ [chr1])).length :=
        List.length_pos.2 (leafRows_ne_nil right hr _)
      rw [List.length_append]
      rcases List.mem_append.1 hrow with hm | hm
      · have := ihl hl _ row hm
        simp only [List.length_append, List.length_singleton] at this
        omega
      · have := ihr hr _ row hm
        simp only [List.length_append, List.length_singleton] at this
        omega

theorem nodup_length_le (l : List Byte) (h : l.Nodup) : l.length ≤ 256 := by
  have := List.Nodup.length_le_card h
  rw [Fintype.card_fin] at this
  exact this

theorem buildHuffmanTree_length_le (ties : List Nat) (text : List Byte) :
    (buildHuffmanTree ties text []).length ≤ 256 := by
  have := nodup_length_le _ (buildHuffmanTree_nodup ties text)
  simpa using this

/-- No code is longer than 255 characters. -/
theorem buildHuffmanTree_code_length (ties : List Nat) (text : List Byte) :
    ∀ e ∈ buildHuffmanTree ties text [], e.2.length < 256 := by
  intro e he
  by_cases h : text = []
  · subst h
    simp [buildHuffmanTree_nil] at he
  · have hlen := buildHuffmanTree_length_le ties text
    rw [buildHuffmanTree_eq ties text h] at he hlen
    obtain ⟨row, hrow, rfl⟩ := List.mem_map.1 he
    have := leafRows_depth _ (huffmanRoot_spec ties text h).1 [] row hrow
    simp only [leafCodes, List.length_map, List.length_nil] at hlen this ⊢
    omega

theorem isBits_codeAt (ties : List Nat) (text : List Byte) (c : Byte) :
    IsBits (codeAt (buildHuffmanTree ties text []) c) := by
  unfold codeAt
  cases hf : find (buildHuffmanTree ties text []) c with
  | none => exact isBits_nil
  | some v => exact buildHuffmanTree_bits ties text (c, v) (mem_of_find _ _ _ hf)

/-- What `compressFile` writes for a text, and what `decompressFile` makes of it:
`compressFile` does not throw, the file is the table followed by the payload, and
`decompressFile` reads the table back and decodes all the bits of the payload. -/
theorem compressFile_spec (ties order : List Nat) (text : List Byte) :
    ∃ payload, packPayload (buildHuffmanTree ties text []) text = some payload ∧
      compressFile ties order text =
        some (writeTable (iterate order (buildHuffmanTree ties text [])) ++ payload) ∧
      readHeader (writeTable (iterate order (buildHuffmanTree ties text [])) ++ payload) =
        some (reverseTable (iterate order (buildHuffmanTree ties text [])), payload) ∧
      decompressFile (writeTable (iterate order (buildHuffmanTree ties text [])) ++ payload) =
        some (decodeBits (reverseTable (iterate order (buildHuffmanTree ties text [])))
          (readBits payload)).2 := by
  obtain ⟨payload, hp, -, -⟩ := packPayload_spec (buildHuffmanTree ties text [])
    (isBits_codeAt ties text) text
  have hperm := iterate_perm order (buildHuffmanTree ties text [])
  have hn : (iterate order (buildHuffmanTree ties text [])).length < 2 ^ 64 := by
    rw [hperm.length_eq]
    have := buildHuffmanTree_length_le ties text
    omega
  have hlen : ∀ e ∈ iterate order (buildHuffmanTree ties text []), e.2.length < 2 ^ 64 := by
    intro e he
    have := buildHuffmanTree_code_length ties text e (hperm.subset he)
    omega
  refine ⟨payload, hp, ?_, readHeader_writeTable _ _ hn hlen,
    decompressFile_writeTable _ _ hn hlen⟩
  simp [compressFile, hp]

end Compressor

namespace Compressor

/-! ## The text "ab" -/

theorem huffmanRoot_ab (ties : List Nat) :
    huffmanRoot ties [97, 98] = .mk chrDollar 2 (Node.new 97 1) (Node.new 98 1) ∨
    huffmanRoot ties [97, 98] = .mk chrDollar 2 (Node.new 98 1) (Node.new 97 1) := by
  have hq : leafQueue (countFreq [97, 98]) = [Node.new 97 1, Node.new 98 1] := by decide
  have hroot := mergeLoop_root ties [97, 98] (by simp)
  rw [hq] at hroot
  obtain ⟨a, b, rest, hp, -, -, heq⟩ :=
    mergeLoop_step 1 ties [Node.new 97 1, Node.new 98 1] (by simp)
  have hrest : rest = [] := by
    have := hp.length_eq
    simp only [List.length_cons, List.length_nil] at this
    exact List.length_eq_zero.1 (by omega)
  subst hrest
  simp only [List.length_cons, List.length_nil, List.nil_append] at hroot heq
  rw [heq, mergeLoop_done _ _ _ (by simp)] at hroot
  have hr : huffmanRoot ties [97, 98] = Node.mk chrDollar (wrapInt (a.frequency + b.frequency)) a b := by
    simpa using hroot.symm
  have ha : a = Node.new 97 1 ∨ a = Node.new 98 1 := by
    have : a ∈ [Node.new 97 1, Node.new 98 1] := hp.symm.subset (by simp)
    simpa using this
  rcases ha with rfl | rfl
  · have hb : b = Node.new 98 1 := by
      have := hp.cons_inv
      simpa using this.symm
    subst hb
    exact Or.inl hr
  · have hb : b = Node.new 97 1 := by
      have h2 : [Node.new 98 1, Node.new 97 1].Perm [Node.new 98 1, b] :=
        (List.Perm.swap _ _ _).trans hp
      have := h2.cons_inv
      simpa using this.symm
    subst hb
    exact Or.inr hr

theorem buildHuffmanTree_ab (ties : List Nat) :
    buildHuffmanTree ties [97, 98] [] = [(97, [48]), (98, [49])] ∨
    buildHuffmanTree ties [97, 98] [] = [(98, [48]), (97, [49])] := by
  have h : buildHuffmanTree ties [97, 98] [] = generateCodes (huffmanRoot ties [97, 98]) [] [] :=
    rfl
  rcases huffmanRoot_ab ties with hr | hr
  · left
    rw [h, hr]
    decide
  · right
    rw [h, hr]
    decide

theorem insertAt_nil {α : Type} (i : Nat) (y : α) : insertAt i y [] = [y] := by
  cases i <;> rfl

theorem iterate_two {α : Type} (order : List Nat) (x y : α) :
    iterate order [x, y] = [x, y] ∨ iterate order [x, y] = [y, x] := by
  have h : iterate order [x, y] = insertAt (order.headD 0) x [y] := by
    simp only [iterate, insertAt_nil]
  rw [h]
  cases order.headD 0 with
  | zero => left; rfl
  | succ n => right; simp only [insertAt, insertAt_nil]

theorem packPayload_replicate (c : Byte) (n : Nat) :
    packPayload [(c, [])] (List.replicate n c) = some [] := by
  have hcode : codeAt [(c, [])] c = [] := by simp [codeAt, find]
  have h : packText [(c, [])] (List.replicate n c) ([], []) = some ([], []) := by
    induction n with
    | zero => rfl
    | succ n ih =>
      simp only [List.replicate_succ, packText, packChar, hcode, List.append_nil,
        List.length_nil, drain]
      exact ih
  simp [packPayload, h]

theorem iterate_singleton {α : Type} (order : List Nat) (x : α) : iterate order [x] = [x] := by
  simp only [iterate, insertAt_nil]

/-- A text that repeats one character is compressed to a table with one entry, whose
code is empty, and no payload; decompressing that file gives the empty text. -/
theorem compressFile_replicate (ties order : List Nat) (n : Nat) (c : Byte) :
    compressFile ties order (List.replicate (n + 1) c) = some (writeTable [(c, [])]) ∧
      decompressFile (writeTable [(c, [])]) = some [] := by
  constructor
  · simp only [compressFile, buildHuffmanTree_replicate, packPayload_replicate,
      iterate_singleton, List.append_nil]
  · have := decompressFile_writeTable [(c, [])] [] (by simp) (by simp)
    rw [List.append_nil] at this
    rw [this]
    rfl

theorem encodedBits_length (codes : List (Byte × List Byte)) (text : List Byte) :
    (encodedBits codes text).length = (text.map (fun b => (codeAt codes b).length)).sum := by
  simp only [encodedBits, List.length_flatMap]
  rfl

end Compressor

namespace Compressor

/-! ## A text of more than `2 ^ 31` bytes -/

theorem countFreq_longText :
    countFreq (longText 2147483648) = [(97, -2147483648), (98, 2), (99, 3)] := by
  have hrep := countFreq_replicate 2147483647 97
  have hw : wrapInt (((2147483647 : Nat) : Int) + 1) = -2147483648 := by decide
  rw [hw] at hrep
  have happ : ∀ A B : List Byte, countFreq (A ++ B) = B.foldl incr (countFreq A) := by
    intro A B
    simp only [countFreq, List.foldl_append]
  unfold longText
  rw [happ]
  have h1 : (2147483648 : Nat) = 2147483647 + 1 := by norm_num
  rw [h1, hrep]
  decide

theorem huffmanRoot_longText :
    huffmanRoot [] (longText 2147483648) =
      .mk chrDollar (-2147483643)
        (.mk chrDollar (-2147483646) (Node.new 97 (-2147483648)) (Node.new 98 2))
        (Node.new 99 3) := by
  simp only [huffmanRoot, countFreq_longText]
  decide

theorem longText_ne_nil (n : Nat) : longText n ≠ [] := by
  unfold longText
  exact List.append_ne_nil_of_right_ne_nil _ (by simp)

theorem buildHuffmanTree_longText :
    buildHuffmanTree [] (longText 2147483648) [] =
      [(97, [48, 48]), (98, [48, 49]), (99, [49])] := by
  rw [buildHuffmanTree_eq [] _ (longText_ne_nil _), huffmanRoot_longText]
  decide

theorem longText_dedup : ([97, 98, 99] : List Byte).Perm (longText 2147483648).dedup := by
  have := keys_countFreq_perm (longText 2147483648)
  rw [countFreq_longText] at this
  exact this

theorem mem_longText (x : Byte) (h : x ∈ longText 2147483648) : x = 97 ∨ x = 98 ∨ x = 99 := by
  unfold longText at h
  rcases List.mem_append.1 h with h | h
  · exact Or.inl (List.eq_of_mem_replicate h)
  · simp only [List.mem_cons, List.mem_singleton, List.not_mem_nil, or_false] at h
    rcases h with h | h | h | h | h
    · exact Or.inr (Or.inl h)
    · exact Or.inr (Or.inl h)
    · exact Or.inr (Or.inr h)
    · exact Or.inr (Or.inr h)
    · exact Or.inr (Or.inr h)

theorem count_longText (n : Nat) :
    (longText n).count 97 = n ∧ (longText n).count 98 = 2 ∧ (longText n).count 99 = 3 := by
  unfold longText
  have ha : ([98, 98, 99, 99, 99] : List Byte).count 97 = 0 := by decide
  have hb : ([98, 98, 99, 99, 99] : List Byte).count 98 = 2 := by decide
  have hc : ([98, 98, 99, 99, 99] : List Byte).count 99 = 3 := by decide
  have h1 : ((97 : Byte) == 98) = false := by decide
  have h2 : ((97 : Byte) == 99) = false := by decide
  refine ⟨?_, ?_, ?_⟩
  · rw [List.count_append, List.count_replicate_self, ha, Nat.add_zero]
  · rw [List.count_append, List.count_replicate, h1, hb]
    simp
  · rw [List.count_append, List.count_replicate, h2, hc]
    simp

/-! ## The claims -/

/-- C1, as the program behaves on the two-byte text "ab": whichever way ties are decided
and whichever order the table is written in, `compressFile` writes a file and
`decompressFile` turns that file into a text of 8 bytes, which is not the text
"ab": the round trip fails. -/
theorem roundtrip_two_bytes (ties order : List Nat) :
    ∃ container out, compressFile ties order [97, 98] = some container ∧
      decompressFile container = some out ∧ out.length = 8 ∧ out ≠ [97, 98] := by
  simp only [compressFile]
  rcases buildHuffmanTree_ab ties with h | h
  · have hp : packPayload [(97, [48]), (98, [49])] [97, 98] = some [1] := by decide
    rw [h, hp]
    rcases iterate_two order ((97 : Byte), [(48 : Byte)]) (98, [49]) with h2 | h2
    · rw [h2]
      exact ⟨_, [97, 97, 97, 97, 97, 97, 97, 98], rfl, by decide, rfl, by decide⟩
    · rw [h2]
      exact ⟨_, [97, 97, 97, 97, 97, 97, 97, 98], rfl, by decide, rfl, by decide⟩
  · have hp : packPayload [(98, [48]), (97, [49])] [97, 98] = some [2] := by decide
    rw [h, hp]
    rcases iterate_two order ((98 : Byte), [(48 : Byte)]) (97, [49]) with h2 | h2
    · rw [h2]
      exact ⟨_, [98, 98, 98, 98, 98, 98, 97, 98], rfl, by decide, rfl, by decide⟩
    · rw [h2]
      exact ⟨_, [98, 98, 98, 98, 98, 98, 97, 98], rfl, by decide, rfl, by decide⟩

/-- C2: in the code table built by `buildHuffmanTree` for any text, the codes of two
distinct characters are free of prefixes: neither is the beginning of the other. -/
theorem prefix_free_law (ties : List Nat) (text : List Byte) (x y : Byte)
    (cx cy : List Byte) (hx : (x, cx) ∈ buildHuffmanTree ties text [])
    (hy : (y, cy) ∈ buildHuffmanTree ties text []) (hxy : x ≠ y) :
    ¬ cx <+: cy ∧ ¬ cy <+: cx := by
  have hp := buildHuffmanTree_pairwise ties text
  have hsym : Symmetric (fun e1 e2 : Byte × List Byte => Unrelated e1.2 e2.2) :=
    fun _ _ h => ⟨h.2, h.1⟩
  have hne : (x, cx) ≠ (y, cy) := fun e => hxy (Prod.mk.inj e).1
  exact hp.forall hsym hx hy hne

/-- C2 at the text "ab", whose table gives "0" to `a` and "1" to `b`. -/
theorem prefix_free_law_witness :
    ((97 : Byte), [(48 : Byte)]) ∈ buildHuffmanTree [] [97, 98] [] ∧
      ((98 : Byte), [(49 : Byte)]) ∈ buildHuffmanTree [] [97, 98] [] ∧ (97 : Byte) ≠ 98 ∧
      (¬ [(48 : Byte)] <+: [(49 : Byte)] ∧ ¬ [(49 : Byte)] <+: [(48 : Byte)]) :=
  ⟨by decide, by decide, by decide,
    prefix_free_law [] [97, 98] 97 98 [48] [49] (by decide) (by decide) (by decide)⟩

/-- C3 fails: for the text of `2 ^ 31` bytes `a` followed by "bbccc" the count of `a`
overflows to `-2 ^ 31`, the most frequent character is merged first, and the table is
`a` = "00", `b` = "01", `c` = "1".  The assignment `a` = "1", `b` = "00", `c` = "01"
is free of prefixes and encodes the text in fewer bits. -/
theorem optimality_fails_after_overflow :
    longText 2147483648 ≠ [] ∧
    buildHuffmanTree [] (longText 2147483648) [] =
      [(97, [48, 48]), (98, [48, 49]), (99, [49])] ∧
    (∀ x ∈ longText 2147483648, ∀ y ∈ longText 2147483648, x ≠ y →
      ¬ rivalCode x <+: rivalCode y) ∧
    ((longText 2147483648).dedup.map (fun s => (longText 2147483648).count s *
      (codeAt (buildHuffmanTree [] (longText 2147483648) []) s).length)).sum = 4294967303 ∧
    ((longText 2147483648).dedup.map (fun s => (longText 2147483648).count s *
      (rivalCode s).length)).sum = 2147483658 ∧
    ¬ ((longText 2147483648).dedup.map (fun s => (longText 2147483648).count s *
        (codeAt (buildHuffmanTree [] (longText 2147483648) []) s).length)).sum ≤
      ((longText 2147483648).dedup.map (fun s => (longText 2147483648).count s *
        (rivalCode s).length)).sum := by
  have hcodes := buildHuffmanTree_longText
  have hkeys := longText_dedup
  have hcount := count_longText 2147483648
  have h1 : ((longText 2147483648).dedup.map (fun s => (longText 2147483648).count s *
      (codeAt (buildHuffmanTree [] (longText 2147483648) []) s).length)).sum = 4294967303 := by
    rw [← (hkeys.map _).sum_eq, hcodes]
    simp only [List.map_cons, List.map_nil, List.sum_cons, List.sum_nil, hcount.1,
      hcount.2.1, hcount.2.2]
    have e1 : (codeAt [(97, [48, 48]), (98, [48, 49]), (99, [49])] 97).length = 2 := by decide
    have e2 : (codeAt [(97, [48, 48]), (98, [48, 49]), (99, [49])] 98).length = 2 := by decide
    have e3 : (codeAt [(97, [48, 48]), (98, [48, 49]), (99, [49])] 99).length = 1 := by decide
    rw [e1, e2, e3]
    norm_num
  have h2 : ((longText 2147483648).dedup.map (fun s => (longText 2147483648).count s *
      (rivalCode s).length)).sum = 2147483658 := by
    rw [← (hkeys.map _).sum_eq]
    simp only [List.map_cons, List.map_nil, List.sum_cons, List.sum_nil, hcount.1,
      hcount.2.1, hcount.2.2]
    have e1 : (rivalCode 97).length = 1 := by decide
    have e2 : (rivalCode 98).length = 2 := by decide
    have e3 : (rivalCode 99).length = 2 := by decide
    rw [e1, e2, e3]
    norm_num
  refine ⟨longText_ne_nil _, hcodes, ?_, h1, h2, ?_⟩
  · intro x hx y hy hxy
    have hx' := mem_longText x hx
    have hy' := mem_longText y hy
    rcases hx' with rfl | rfl | rfl <;> rcases hy' with rfl | rfl | rfl <;>
      first
        | exact absurd rfl hxy
        | decide
  · rw [h1, h2]
    norm_num

/-- C3 as amended: for a text shorter than `2 ^ 31` bytes the code table minimises the
length of the encoded text.  For every assignment `c'` of bit strings to the
characters in which no string given to a character of the text is the beginning of
the string of another one, the sum over the distinct characters of frequency times
code length is at most the same sum for `c'`, however the priority queue decides
ties. -/
theorem huffman_optimal (ties : List Nat) (text : List Byte) (c' : Byte → List Bool)
    (hlen : text.length < 2 ^ 31)
    (hpf : ∀ x ∈ text, ∀ y ∈ text, x ≠ y → ¬ c' x <+: c' y) :
    (text.dedup.map (fun s =>
        text.count s * (codeAt (buildHuffmanTree ties text []) s).length)).sum ≤
      (text.dedup.map (fun s => text.count s * (c' s).length)).sum := by
  have hlen' : text.length < 2147483648 := by
    have : (2 : Nat) ^ 31 = 2147483648 := by norm_num
    omega
  by_cases hne : text = []
  · subst hne
    simp
  · have hI : (((text.dedup.map (fun s =>
          text.count s * (codeAt (buildHuffmanTree ties text []) s).length)).sum : Nat) : Int) ≤
        (((text.dedup.map (fun s => text.count s * (c' s).length)).sum : Nat) : Int) := by
      rw [encoded_length_eq ties text hne hlen', cast_sum_map]
      have hg := sum_dedup_eq text hlen' (fun s n => n * ((c' s).length : Int))
      simp only [Nat.cast_mul]
      rw [hg]
      obtain ⟨L, hL⟩ := exists_length_bound ((countFreq text).map (fun p => c' p.1))
      apply huffmanRoot_optimal ties text hne hlen' (fun s => (c' s).length) L
      · intro s hs
        obtain ⟨p, hp, rfl⟩ := List.mem_map.1 ((mem_keys_countFreq text s).2 hs)
        exact hL _ (List.mem_map.2 ⟨p, hp, rfl⟩)
      · have hpw : ((countFreq text).map (fun p => c' p.1)).Pairwise
            (fun u v => Unrelated u v) := by
          rw [List.pairwise_map]
          have hnd : (countFreq text).Pairwise (fun p q => p.1 ≠ q.1) := by
            have := countFreq_keys_nodup text
            rwa [List.Nodup, List.pairwise_map] at this
          refine hnd.imp_of_mem ?_
          intro p q hp hq hpq
          have hpt : p.1 ∈ text :=
            (mem_keys_countFreq text p.1).1 (List.mem_map.2 ⟨p, hp, rfl⟩)
          have hqt : q.1 ∈ text :=
            (mem_keys_countFreq text q.1).1 (List.mem_map.2 ⟨q, hq, rfl⟩)
          exact ⟨hpf _ hpt _ hqt hpq, hpf _ hqt _ hpt (Ne.symm hpq)⟩
        have := kraft_of_unrelated L _ hpw hL
        simpa [List.map_map, Function.comp_def] using this
    exact_mod_cast hI

/-- C3 as amended, at the text "abb" and the assignment that gives "0" to `a` and "1"
to every other character. -/
theorem huffman_optimal_witness :
    ([97, 98, 98] : List Byte).length < 2 ^ 31 ∧
    (∀ x ∈ ([97, 98, 98] : List Byte), ∀ y ∈ ([97, 98, 98] : List Byte), x ≠ y →
        ¬ (fun b : Byte => if b = 97 then [false] else [true]) x <+:
          (fun b : Byte => if b = 97 then [false] else [true]) y) ∧
      (([97, 98, 98] : List Byte).dedup.map (fun s =>
          ([97, 98, 98] : List Byte).count s *
            (codeAt (buildHuffmanTree [] [97, 98, 98] []) s).length)).sum ≤
        (([97, 98, 98] : List Byte).dedup.map (fun s =>
          ([97, 98, 98] : List Byte).count s *
            ((fun b : Byte => if b = 97 then [false] else [true]) s).length)).sum :=
  ⟨by simp, by simp,
    huffman_optimal [] [97, 98, 98] (fun b => if b = 97 then [false] else [true])
      (by simp) (by simp)⟩

end Compressor

namespace Compressor

/-- C4, as the program behaves on 1000 repetitions of the byte 0x41: the file written
by `compressFile` has alphabet size 1 and its single entry has a code of length 0, so
that no payload is written; `decompressFile` turns that file into the empty text, not
into 1000 bytes. -/
theorem single_symbol_edge_case (ties order : List Nat) :
    compressFile ties order (List.replicate 1000 65) =
      some [1, 0, 0, 0, 0, 0, 0, 0, 65, 0, 0, 0, 0, 0, 0, 0, 0] ∧
    readSize [1, 0, 0, 0, 0, 0, 0, 0, 65, 0, 0, 0, 0, 0, 0, 0, 0] =
      some (1, [65, 0, 0, 0, 0, 0, 0, 0, 0]) ∧
    decompressFile [1, 0, 0, 0, 0, 0, 0, 0, 65, 0, 0, 0, 0, 0, 0, 0, 0] = some [] := by
  have h := compressFile_replicate ties order 999 65
  have hw : writeTable [((65 : Byte), [])] =
      [1, 0, 0, 0, 0, 0, 0, 0, 65, 0, 0, 0, 0, 0, 0, 0, 0] := by decide
  rw [hw] at h
  exact ⟨h.1, by decide, h.2⟩

/-- C5: compressing the empty text gives a file of 8 bytes, the alphabet size 0, with
no table entry and no payload after it; decompressing that file gives the empty text. -/
theorem empty_input (ties order : List Nat) :
    compressFile ties order [] = some [0, 0, 0, 0, 0, 0, 0, 0] ∧
    readSize [0, 0, 0, 0, 0, 0, 0, 0] = some (0, []) ∧
    readHeader [0, 0, 0, 0, 0, 0, 0, 0] = some ([], []) ∧
    decompressFile [0, 0, 0, 0, 0, 0, 0, 0] = some [] := by
  refine ⟨?_, by decide, by decide, by decide⟩
  have h1 : packPayload [] [] = some [] := rfl
  have h2 : iterate order ([] : List (Byte × List Byte)) = [] := rfl
  have h3 : writeTable [] ++ [] = [0, 0, 0, 0, 0, 0, 0, 0] := by decide
  simp only [compressFile, buildHuffmanTree_nil, h1, h2, h3]

/-- C6 fails: the text "abcabcabcc" is compressed to a table and the payload bytes 181
and 172, and that file decompresses to the text.  Without the last payload byte the
decoding loop ends with the unmatched partial code "1" in `code`, and `decompressFile`
still succeeds and returns the four bytes "abca". -/
theorem truncated_payload_accepted :
    compressFile [] [] [97, 98, 99, 97, 98, 99, 97, 98, 99, 99] =
      some (writeTable [(99, [48]), (97, [49, 48]), (98, [49, 49])] ++ [181, 172]) ∧
    decompressFile (writeTable [(99, [48]), (97, [49, 48]), (98, [49, 49])] ++ [181, 172]) =
      some [97, 98, 99, 97, 98, 99, 97, 98, 99, 99] ∧
    (decodeBits (reverseTable [(99, [48]), (97, [49, 48]), (98, [49, 49])])
      (readBits [181])).1 = [49] ∧
    find (reverseTable [(99, [48]), (97, [49, 48]), (98, [49, 49])]) [49] = none ∧
    decompressFile (writeTable [(99, [48]), (97, [49, 48]), (98, [49, 49])] ++ [181]) =
      some [97, 98, 99, 97] := by
  refine ⟨by decide, by decide, by decide, by decide, by decide⟩

/-- C6 as amended: `decompressFile` reports no malformed stream.  For every table and
every payload it returns the bytes the decoding loop has written when the bits are
exhausted, whatever partial code is left in `code` at that point; this includes a
valid file whose payload has lost its last byte. -/
theorem partial_code_dropped (entries : List (Byte × List Byte)) (payload : List Byte)
    (hn : entries.length < 2 ^ 64) (hlen : ∀ e ∈ entries, e.2.length < 2 ^ 64) :
    decompressFile (writeTable entries ++ payload) =
      some (decodeBits (reverseTable entries) (readBits payload)).2 ∧
    decompressFile (writeTable entries ++ payload.dropLast) =
      some (decodeBits (reverseTable entries) (readBits payload.dropLast)).2 :=
  ⟨decompressFile_writeTable entries payload hn hlen,
    decompressFile_writeTable entries payload.dropLast hn hlen⟩

/-- C6 as amended, at the table of the text "abcabcabcc" and its payload. -/
theorem partial_code_dropped_witness :
    ([((99 : Byte), [(48 : Byte)]), (97, [49, 48]), (98, [49, 49])]).length < 2 ^ 64 ∧
    (∀ e ∈ [((99 : Byte), [(48 : Byte)]), (97, [49, 48]), (98, [49, 49])],
      e.2.length < 2 ^ 64) ∧
    (decompressFile (writeTable [(99, [48]), (97, [49, 48]), (98, [49, 49])] ++ [181, 172]) =
      some (decodeBits (reverseTable [(99, [48]), (97, [49, 48]), (98, [49, 49])])
        (readBits [181, 172])).2 ∧
    decompressFile (writeTable [(99, [48]), (97, [49, 48]), (98, [49, 49])] ++
        [181, 172].dropLast) =
      some (decodeBits (reverseTable [(99, [48]), (97, [49, 48]), (98, [49, 49])])
        (readBits [181, 172].dropLast)).2) :=
  ⟨by simp, by simp,
    partial_code_dropped [(99, [48]), (97, [49, 48]), (98, [49, 49])] [181, 172]
      (by simp) (by simp)⟩

/-- C7, as the program behaves on the text "ab": the payload is one byte, and read
back bit by bit it is six zeros followed by the two bits of the encoded text.  The
padding comes before the bits of the text and not after them: the payload is not the
encoded text followed by zeros. -/
theorem padding_precedes_last_bits (ties : List Nat) :
    ∃ payload, packPayload (buildHuffmanTree ties [97, 98] []) [97, 98] = some payload ∧
      readBits payload = List.replicate 6 chr0 ++
        encodedBits (buildHuffmanTree ties [97, 98] []) [97, 98] ∧
      ∀ k, readBits payload ≠
        encodedBits (buildHuffmanTree ties [97, 98] []) [97, 98] ++ List.replicate k chr0 := by
  rcases buildHuffmanTree_ab ties with h | h
  · rw [h]
    refine ⟨[1], by decide, by decide, ?_⟩
    intro k hk
    have h1 : readBits [1] = [48, 48, 48, 48, 48, 48, 48, 49] := by decide
    have h2 : encodedBits [(97, [48]), (98, [49])] [97, 98] = [48, 49] := by decide
    rw [h1, h2] at hk
    simp only [List.cons_append, List.cons.injEq] at hk
    exact absurd hk.2.1 (by decide)
  · rw [h]
    refine ⟨[2], by decide, by decide, ?_⟩
    intro k hk
    have h1 : readBits [2] = [48, 48, 48, 48, 48, 48, 49, 48] := by decide
    have h2 : encodedBits [(98, [48]), (97, [49])] [97, 98] = [49, 48] := by decide
    rw [h1, h2] at hk
    simp only [List.cons_append, List.cons.injEq] at hk
    exact absurd hk.1 (by decide)

/-- C8 fails: for the text "ab" the code lengths add up to 2 bits, the payload is the
byte 1, and the decoding loop runs over all 8 bits of that byte; the 6 padding bits
are decoded as 6 more bytes, so that 8 bytes are written for a text of 2 bytes. -/
theorem padding_bits_decoded :
    buildHuffmanTree [] [97, 98] [] = [(97, [48]), (98, [49])] ∧
    ([97, 98].map (fun b =>
      (codeAt (buildHuffmanTree [] [97, 98] []) b).length)).sum = 2 ∧
    compressFile [] [] [97, 98] = some (writeTable [(97, [48]), (98, [49])] ++ [1]) ∧
    readHeader (writeTable [(97, [48]), (98, [49])] ++ [1]) =
      some ([([48], 97), ([49], 98)], [1]) ∧
    (readBits [1]).length = 8 ∧
    decodeBits [([48], 97), ([49], 98)] (readBits [1]) =
      ([], [97, 97, 97, 97, 97, 97, 97, 98]) ∧
    decompressFile (writeTable [(97, [48]), (98, [49])] ++ [1]) =
      some [97, 97, 97, 97, 97, 97, 97, 98] := by
  refine ⟨by decide, by decide, by decide, by decide, by decide, by decide, by decide⟩

/-- C8 as amended: no count of leftover bits is stored, and the decoder consumes every
bit of the payload.  For a text whose code lengths add up to `T`, the file written by
`compressFile` is the header followed by a payload that `readBits` expands to
`8 * ⌈T / 8⌉` bits, and the text written by `decompressFile` is what the decoding loop
produces from all of these bits, the padding bits included. -/
theorem decoder_consumes_padding (ties order : List Nat) (text : List Byte) :
    ∃ payload,
      compressFile ties order text =
        some (writeTable (iterate order (buildHuffmanTree ties text [])) ++ payload) ∧
      readHeader (writeTable (iterate order (buildHuffmanTree ties text [])) ++ payload) =
        some (reverseTable (iterate order (buildHuffmanTree ties text [])), payload) ∧
      (readBits payload).length =
        8 * (((text.map (fun b =>
          (codeAt (buildHuffmanTree ties text []) b).length)).sum + 7) / 8) ∧
      decompressFile
          (writeTable (iterate order (buildHuffmanTree ties text [])) ++ payload) =
        some (decodeBits (reverseTable (iterate order (buildHuffmanTree ties text [])))
          (readBits payload)).2 := by
  obtain ⟨payload, hp, hc, hh, hd⟩ := compressFile_spec ties order text
  obtain ⟨payload', hp', hlen, _⟩ := packPayload_spec (buildHuffmanTree ties text [])
    (isBits_codeAt ties text) text
  rw [hp] at hp'
  obtain rfl := Option.some.inj hp'
  refine ⟨payload, hc, hh, ?_, hd⟩
  rw [readBits_length, hlen, encodedBits_length]

/-- C9, as the program behaves on a text of one byte, 0x41: the code table has one
entry, and its code is the empty string, of length 0. -/
theorem single_symbol_code_empty (ties : List Nat) :
    buildHuffmanTree ties [65] [] = [(65, [])] ∧
      (codeAt (buildHuffmanTree ties [65] []) 65).length = 0 := by
  have h := buildHuffmanTree_replicate ties 0 65
  simp only [Nat.zero_add, List.replicate_one] at h
  rw [h]
  exact ⟨rfl, by decide⟩

/-- C10: the code table built for a text has exactly one entry for every byte value
that occurs in the text and no other entry, so the number of entries is the number of
distinct bytes of the text; that number is the alphabet size `compressFile` writes at
the start of the file. -/
theorem code_table_coverage (ties order : List Nat) (text : List Byte) :
    ((buildHuffmanTree ties text []).map Prod.fst).Nodup ∧
    (∀ c : Byte, c ∈ (buildHuffmanTree ties text []).map Prod.fst ↔ c ∈ text) ∧
    (buildHuffmanTree ties text []).length = text.dedup.length ∧
    ∃ rest, compressFile ties order text = some (sizeBytes text.dedup.length ++ rest) ∧
      readSize (sizeBytes text.dedup.length ++ rest) = some (text.dedup.length, rest) := by
  refine ⟨buildHuffmanTree_nodup ties text, mem_buildHuffmanTree_keys ties text,
    buildHuffmanTree_length ties text, ?_⟩
  obtain ⟨payload, -, hc, -, -⟩ := compressFile_spec ties order text
  have hlen : (iterate order (buildHuffmanTree ties text [])).length = text.dedup.length := by
    rw [(iterate_perm order _).length_eq, buildHuffmanTree_length]
  have hle : text.dedup.length ≤ 256 := by
    rw [← buildHuffmanTree_length ties text]
    exact buildHuffmanTree_length_le ties text
  have hlt : text.dedup.length < 2 ^ 64 := by omega
  refine ⟨(iterate order (buildHuffmanTree ties text [])).flatMap writeEntry ++ payload,
    ?_, readSize_sizeBytes _ hlt _⟩
  rw [hc, writeTable_eq, hlen, Nat.mod_eq_of_lt hlt, List.append_assoc]

end Compressor

namespace Compressor

/-! ## The table read back by `decompressFile` -/

theorem foldl_assign_eq (entries : List (Byte × List Byte)) :
    ∀ (rc : List (List Byte × Byte)),
    (rc.map Prod.fst ++ entries.map Prod.snd).Nodup →
    entries.foldl (fun reverseCodes pair => assign reverseCodes pair.2 pair.1) rc =
      rc ++ entries.map (fun pair => (pair.2, pair.1)) := by
  induction entries with
  | nil => intro rc _; simp
  | cons e entries ih =>
    intro rc hnd
    have hnot : e.2 ∉ rc.map Prod.fst := by
      intro hmem
      rw [List.nodup_append] at hnd
      exact hnd.2.2 hmem (by simp)
    rw [List.foldl_cons, assign_of_not_mem _ _ _ hnot, ih]
    · simp
    · simpa [List.map_append, List.append_assoc] using hnd

/-- When the codes of a table are pairwise different, reading the table gives the
list of its entries with code and character exchanged. -/
theorem reverseTable_eq_map (entries : List (Byte × List Byte))
    (hnd : (entries.map Prod.snd).Nodup) :
    reverseTable entries = entries.map (fun pair => (pair.2, pair.1)) := by
  have := foldl_assign_eq entries [] (by simpa using hnd)
  simpa [reverseTable] using this

theorem find_reverseTable (entries : List (Byte × List Byte))
    (hnd : (entries.map Prod.snd).Nodup) (code : List Byte) (c : Byte) :
    find (reverseTable entries) code = some c ↔ (c, code) ∈ entries := by
  rw [reverseTable_eq_map entries hnd]
  have hkeys : ((entries.map (fun pair => (pair.2, pair.1))).map Prod.fst).Nodup := by
    simpa [List.map_map, Function.comp_def] using hnd
  constructor
  · intro h
    have := mem_of_find _ _ _ h
    obtain ⟨e, he, heq⟩ := List.mem_map.1 this
    obtain ⟨h1, h2⟩ := Prod.mk.inj heq
    rw [← h1, ← h2]
    exact he
  · intro h
    exact find_of_mem _ _ _ hkeys (List.mem_map.2 ⟨(c, code), h, rfl⟩)

theorem unrelated_ne {α : Type} (u v : List α) (h : Unrelated u v) : u ≠ v := by
  intro e
  subst e
  exact h.1 (List.prefix_refl u)

/-- The codes of the table are pairwise different. -/
theorem buildHuffmanTree_codes_nodup (ties : List Nat) (text : List Byte) :
    ((buildHuffmanTree ties text []).map Prod.snd).Nodup := by
  rw [List.Nodup, List.pairwise_map]
  exact (buildHuffmanTree_pairwise ties text).imp (fun h => unrelated_ne _ _ h)

theorem mem_iff_find (codes : List (Byte × List Byte)) (hnd : (codes.map Prod.fst).Nodup)
    (c : Byte) (code : List Byte) : (c, code) ∈ codes ↔ find codes c = some code :=
  ⟨find_of_mem codes c code hnd, mem_of_find codes c code⟩

/-- The map read back from a file written by `compressFile` is the inverse of the code
table, whatever the order of the entries in the file. -/
theorem find_reverseTable_iterate (ties order : List Nat) (text : List Byte)
    (code : List Byte) (c : Byte) :
    find (reverseTable (iterate order (buildHuffmanTree ties text []))) code = some c ↔
      find (buildHuffmanTree ties text []) c = some code := by
  have hperm := iterate_perm order (buildHuffmanTree ties text [])
  rw [find_reverseTable _ ((hperm.map Prod.snd).nodup_iff.2
    (buildHuffmanTree_codes_nodup ties text)), hperm.mem_iff,
    mem_iff_find _ (buildHuffmanTree_nodup ties text)]

theorem table_bounds (ties order : List Nat) (text : List Byte) :
    (iterate order (buildHuffmanTree ties text [])).length < 2 ^ 64 ∧
      ∀ e ∈ iterate order (buildHuffmanTree ties text []), e.2.length < 2 ^ 64 := by
  have hperm := iterate_perm order (buildHuffmanTree ties text [])
  constructor
  · rw [hperm.length_eq]
    have := buildHuffmanTree_length_le ties text
    omega
  · intro e he
    have := buildHuffmanTree_code_length ties text e (hperm.subset he)
    omega

end Compressor

namespace Compressor

/-! ## Codes of texts with two distinct characters -/

/-- In a well-formed tree with at least two leaves every path is longer than the path
to the root. -/
theorem leafRows_longer (t : Node) (h : WellFormed t) (code : List Byte)
    (h2 : 2 ≤ (leafRows t code).length) :
    ∀ row ∈ leafRows t code, code.length < row.2.2.length := by
  cases t with
  | nullptr => exact absurd h (by simp [WellFormed])
  | mk data f left right =>
    unfold WellFormed at h
    rcases h with ⟨hl, hr⟩ | ⟨hl, -, -⟩
    · subst hl hr
      simp [leafRows, Node.isNull] at h2
    · intro row hrow
      rw [leafRows_merge _ _ _ _ _ hl] at hrow
      rcases List.mem_append.1 hrow with hm | hm
      · obtain ⟨path, hp, -⟩ := leafRows_path left _ row hm
        rw [hp]
        simp
      · obtain ⟨path, hp, -⟩ := leafRows_path right _ row hm
        rw [hp]
        simp

theorem two_le_countFreq_length (text : List Byte) (x y : Byte) (hx : x ∈ text)
    (hy : y ∈ text) (hxy : x ≠ y) : 2 ≤ (countFreq text).length := by
  have hx' := (mem_keys_countFreq text x).2 hx
  have hy' := (mem_keys_countFreq text y).2 hy
  rcases hk : (countFreq text).map Prod.fst with _ | ⟨k, _ | ⟨k2, rest⟩⟩
  · rw [hk] at hx'
    simp at hx'
  · rw [hk] at hx' hy'
    simp only [List.mem_singleton] at hx' hy'
    exact absurd (hx'.trans hy'.symm) hxy
  · have := congrArg List.length hk
    simp only [List.length_map, List.length_cons] at this
    omega

/-- When the text has two distinct characters, no code of the table is empty. -/
theorem buildHuffmanTree_code_ne_nil (ties : List Nat) (text : List Byte) (x y : Byte)
    (hx : x ∈ text) (hy : y ∈ text) (hxy : x ≠ y) :
    ∀ e ∈ buildHuffmanTree ties text [], e.2 ≠ [] := by
  have hne : text ≠ [] := List.ne_nil_of_mem hx
  intro e he
  rw [buildHuffmanTree_eq ties text hne] at he
  obtain ⟨row, hrow, rfl⟩ := List.mem_map.1 he
  have hspec := huffmanRoot_spec ties text hne
  have hlen : 2 ≤ (leafRows (huffmanRoot ties text) []).length := by
    have h1 := hspec.2.length_eq
    have h2 := two_le_countFreq_length text x y hx hy hxy
    simp only [leaves, List.length_map] at h1
    omega
  have := leafRows_longer _ hspec.1 [] hlen row hrow
  intro hnil
  simp only at hnil
  rw [hnil] at this
  simp at this

theorem codeAt_mem (codes : List (Byte × List Byte)) (c : Byte)
    (h : c ∈ codes.map Prod.fst) : (c, codeAt codes c) ∈ codes := by
  unfold codeAt
  cases hf : find codes c with
  | none => exact absurd h ((find_eq_none_iff codes c).1 hf)
  | some v => exact mem_of_find codes c v hf

/-! ## The decoding loop on encoded text -/

/-- The decoding loop run over the rest of one code: when no proper beginning of the
code is in the map and the code itself is, the loop writes the character of the code
and clears `code`. -/
theorem decode_one (rc : List (List Byte × Byte)) (code : List Byte) (c : Byte)
    (hfind : find rc code = some c)
    (hpre : ∀ p, p <+: code → p ≠ code → find rc p = none) :
    ∀ (suf pre out : List Byte), pre ++ suf = code → suf ≠ [] →
      suf.foldl (decodeBit rc) (pre, out) = ([], out ++ [c]) := by
  intro suf
  induction suf with
  | nil => intro pre out _ h; exact absurd rfl h
  | cons b rest ih =>
    intro pre out hcode _
    by_cases hrest : rest = []
    · subst hrest
      simp only [List.foldl_cons, List.foldl_nil, decodeBit, hcode, hfind]
    · have hproper : find rc (pre ++ [b]) = none := by
        apply hpre
        · exact ⟨rest, by rw [← hcode]; simp⟩
        · intro e
          have h1 := congrArg List.length e
          have h2 := congrArg List.length hcode
          simp only [List.length_append, List.length_cons, List.length_nil] at h1 h2
          have : rest.length = 0 := by omega
          exact hrest (List.length_eq_zero.1 this)
      simp only [List.foldl_cons, decodeBit, hproper]
      exact ih (pre ++ [b]) out (by rw [← hcode]; simp) hrest

/-- The decoding loop inverts the encoding: for a map that holds the code of every
character of the text, none of these codes being empty, and no proper beginning of
such a code, the loop run over the encoded text writes the text. -/
theorem decodeBits_encodedBits (rc : List (List Byte × Byte)) (codes : List (Byte × List Byte))
    (text : List Byte)
    (hfind : ∀ c ∈ text, find rc (codeAt codes c) = some c)
    (hne : ∀ c ∈ text, codeAt codes c ≠ [])
    (hpre : ∀ c ∈ text, ∀ p, p <+: codeAt codes c → p ≠ codeAt codes c → find rc p = none) :
    decodeBits rc (encodedBits codes text) = ([], text) := by
  have key : ∀ (text : List Byte) (out : List Byte),
      (∀ c ∈ text, find rc (codeAt codes c) = some c) →
      (∀ c ∈ text, codeAt codes c ≠ []) →
      (∀ c ∈ text, ∀ p, p <+: codeAt codes c → p ≠ codeAt codes c → find rc p = none) →
      (encodedBits codes text).foldl (decodeBit rc) ([], out) = ([], out ++ text) := by
    intro text
    induction text with
    | nil => intro out _ _ _; simp [encodedBits]
    | cons c text ih =>
      intro out h1 h2 h3
      have hc : c ∈ c :: text := by simp
      have hstep := decode_one rc (codeAt codes c) c (h1 c hc) (h3 c hc)
        (codeAt codes c) [] out (by simp) (h2 c hc)
      have hsplit : encodedBits codes (c :: text) = codeAt codes c ++ encodedBits codes text := by
        simp [encodedBits]
      rw [hsplit, List.foldl_append, hstep,
        ih (out ++ [c]) (fun d hd => h1 d (List.mem_cons_of_mem _ hd))
          (fun d hd => h2 d (List.mem_cons_of_mem _ hd))
          (fun d hd => h3 d (List.mem_cons_of_mem _ hd))]
      simp
  simpa [decodeBits] using key text [] hfind hne hpre

/-- For a text with two distinct characters the decoding loop, run with the map read
back from the file over the encoded text, writes the text. -/
theorem decodeBits_huffman (ties order : List Nat) (text : List Byte) (x y : Byte)
    (hx : x ∈ text) (hy : y ∈ text) (hxy : x ≠ y) :
    decodeBits (reverseTable (iterate order (buildHuffmanTree ties text [])))
      (encodedBits (buildHuffmanTree ties text []) text) = ([], text) := by
  have hmem : ∀ c ∈ text, (c, codeAt (buildHuffmanTree ties text []) c) ∈
      buildHuffmanTree ties text [] :=
    fun c hc => codeAt_mem _ c ((mem_buildHuffmanTree_keys ties text c).2 hc)
  have hnd := buildHuffmanTree_nodup ties text
  apply decodeBits_encodedBits
  · intro c hc
    rw [find_reverseTable_iterate]
    exact find_of_mem _ _ _ hnd (hmem c hc)
  · intro c hc
    exact buildHuffmanTree_code_ne_nil ties text x y hx hy hxy _ (hmem c hc)
  · intro c hc p hp hpne
    cases hf : find (reverseTable (iterate order (buildHuffmanTree ties text []))) p with
    | none => rfl
    | some d =>
      exfalso
      rw [find_reverseTable_iterate] at hf
      have hd := mem_of_find _ _ _ hf
      have hsym : Symmetric (fun e1 e2 : Byte × List Byte => Unrelated e1.2 e2.2) :=
        fun _ _ h => ⟨h.2, h.1⟩
      have hdiff : (d, p) ≠ (c, codeAt (buildHuffmanTree ties text []) c) :=
        fun e => hpne (Prod.mk.inj e).2
      exact ((buildHuffmanTree_pairwise ties text).forall hsym hd (hmem c hc) hdiff).1 hp

end Compressor

namespace Compressor

/-! ## The final byte of the payload -/

/-- When the number of encoded bits is not a multiple of 8, the payload ends with one
byte whose value is the remaining bits read as a binary number; the bytes before it
hold the complete groups of 8 bits. -/
theorem packPayload_last (codes : List (Byte × List Byte)) (hc : ∀ c, IsBits (codeAt codes c))
    (text : List Byte) (hr : (encodedBits codes text).length % 8 ≠ 0) :
    ∃ full, packPayload codes text = some (full ++
        [Fin.ofNat (binaryValue ((encodedBits codes text).drop
          (8 * ((encodedBits codes text).length / 8))))]) ∧
      readBits full =
        (encodedBits codes text).take (8 * ((encodedBits codes text).length / 8)) ∧
      IsBits ((encodedBits codes text).drop (8 * ((encodedBits codes text).length / 8))) ∧
      ((encodedBits codes text).drop (8 * ((encodedBits codes text).length / 8))).length =
        (encodedBits codes text).length % 8 := by
  obtain ⟨bits', out', hp, hrd, hl, hb, hcount⟩ :=
    packText_spec codes hc text ([], []) isBits_nil (by simp)
  simp only [readBits, List.flatMap_nil, List.nil_append, List.length_nil, Nat.mul_zero,
    Nat.zero_add] at hrd hcount
  change readBits out' ++ bits' = encodedBits codes text at hrd
  change 8 * out'.length + bits'.length = (encodedBits codes text).length at hcount
  have hq : (encodedBits codes text).length / 8 = out'.length := by omega
  have hm : (encodedBits codes text).length % 8 = bits'.length := by omega
  have htake : (encodedBits codes text).take (8 * out'.length) = readBits out' := by
    rw [← hrd, ← readBits_length out', List.take_left']
    rfl
  have hdrop : (encodedBits codes text).drop (8 * out'.length) = bits' := by
    rw [← hrd, ← readBits_length out', List.drop_left']
    rfl
  rw [hq, hm, htake, hdrop]
  have he : bits' ≠ [] := by
    intro e
    rw [e] at hm
    exact hr (by simpa using hm)
  have hemp : bits'.isEmpty = false := by
    cases bits' with
    | nil => exact absurd rfl he
    | cons _ _ => rfl
  have hbs : bitsetOfString bits' = some (binaryValue bits') := by
    rw [bitsetOfString_eq _ hb, List.take_of_length_le (by omega)]
  exact ⟨out', by simp [packPayload, hp, hemp, hbs], rfl, hb, rfl⟩

theorem val_ofNat_binaryValue (s : List Byte) (hlen : s.length ≤ 8) :
    (Fin.ofNat (binaryValue s) : Byte).val = binaryValue s := by
  have h1 := binaryValue_lt s
  have h2 : 2 ^ s.length ≤ 2 ^ 8 := Nat.pow_le_pow_right (by norm_num) hlen
  have hlt : binaryValue s < 256 := by omega
  simp [Fin.ofNat, Nat.mod_eq_of_lt hlt]

/-! ## The size of the file -/

theorem writeEntry_length (pair : Byte × List Byte) :
    (writeEntry pair).length = 9 + pair.2.length := by
  simp only [writeEntry, List.length_cons, List.length_append, sizeBytes_length]
  omega

theorem writeTable_length (entries : List (Byte × List Byte)) :
    (writeTable entries).length = 8 + (entries.map (fun pair => 9 + pair.2.length)).sum := by
  rw [writeTable_eq, List.length_append, sizeBytes_length, List.length_flatMap]
  congr 2
  apply List.map_congr_left
  intro pair _
  exact writeEntry_length pair

theorem writeTable_length_perm {e1 e2 : List (Byte × List Byte)} (h : e1.Perm e2) :
    (writeTable e1).length = (writeTable e2).length := by
  rw [writeTable_length, writeTable_length, (h.map _).sum_eq]

/-- The tree of the text "aaaaaaaaab" does not depend on ties: the rarer character is
taken from the queue first. -/
theorem huffmanRoot_skewed (ties : List Nat) :
    huffmanRoot ties [97, 97, 97, 97, 97, 97, 97, 97, 97, 98] =
      .mk chrDollar 10 (Node.new 98 1) (Node.new 97 9) := by
  have hq : leafQueue (countFreq [97, 97, 97, 97, 97, 97, 97, 97, 97, 98]) =
      [Node.new 97 9, Node.new 98 1] := by decide
  have hroot := mergeLoop_root ties [97, 97, 97, 97, 97, 97, 97, 97, 97, 98] (by simp)
  rw [hq] at hroot
  obtain ⟨a, b, rest, hp, hmin, -, heq⟩ :=
    mergeLoop_step 1 ties [Node.new 97 9, Node.new 98 1] (by simp)
  have hrest : rest = [] := by
    have := hp.length_eq
    simp only [List.length_cons, List.length_nil] at this
    exact List.length_eq_zero.1 (by omega)
  subst hrest
  simp only [List.length_cons, List.length_nil, List.nil_append] at hroot heq
  rw [heq, mergeLoop_done _ _ _ (by simp)] at hroot
  have hr : huffmanRoot ties [97, 97, 97, 97, 97, 97, 97, 97, 97, 98] =
      Node.mk chrDollar (wrapInt (a.frequency + b.frequency)) a b := by
    simpa using hroot.symm
  have ha : a = Node.new 97 9 ∨ a = Node.new 98 1 := by
    have : a ∈ [Node.new 97 9, Node.new 98 1] := hp.symm.subset (by simp)
    simpa using this
  rcases ha with rfl | rfl
  · have := hmin (Node.new 98 1) (by simp)
    simp [Node.new, Node.frequency] at this
  · have hb : b = Node.new 97 9 := by
      have h2 : [Node.new 98 1, Node.new 97 9].Perm [Node.new 98 1, b] :=
        (List.Perm.swap _ _ _).trans hp
      have := h2.cons_inv
      simpa using this.symm
    subst hb
    exact hr

theorem buildHuffmanTree_skewed (ties : List Nat) :
    buildHuffmanTree ties [97, 97, 97, 97, 97, 97, 97, 97, 97, 98] [] =
      [(98, [48]), (97, [49])] := by
  have h : buildHuffmanTree ties [97, 97, 97, 97, 97, 97, 97, 97, 97, 98] [] =
      generateCodes (huffmanRoot ties [97, 97, 97, 97, 97, 97, 97, 97, 97, 98]) [] [] := rfl
  rw [h, huffmanRoot_skewed]
  decide

/-! ## Entries with an empty code -/

/-- The decoding loop looks up non-empty strings only. -/
theorem decodeBits_congr (rc rc' : List (List Byte × Byte))
    (h : ∀ k : List Byte, k ≠ [] → find rc k = find rc' k) (bits : List Byte) :
    decodeBits rc bits = decodeBits rc' bits := by
  have hstep : ∀ state bit, decodeBit rc state bit = decodeBit rc' state bit := by
    intro state bit
    simp only [decodeBit]
    rw [h (state.1 ++ [bit]) (by simp)]
  have key : ∀ (bits : List Byte) (state : List Byte × List Byte),
      bits.foldl (decodeBit rc) state = bits.foldl (decodeBit rc') state := by
    intro bits
    induction bits with
    | nil => intro state; rfl
    | cons b rest ih =>
      intro state
      rw [List.foldl_cons, List.foldl_cons, hstep, ih]
  exact key bits ([], [])

theorem find_filter_ne_nil (rc : List (List Byte × Byte)) (k : List Byte) (hk : k ≠ []) :
    find (rc.filter (fun p => !p.1.isEmpty)) k = find rc k := by
  induction rc with
  | nil => rfl
  | cons p rest ih =>
    obtain ⟨k1, v1⟩ := p
    by_cases h1 : k1 = k
    · subst h1
      have : k1.isEmpty = false := by
        cases k1 with
        | nil => exact absurd rfl hk
        | cons _ _ => rfl
      simp [List.filter_cons, this, find]
    · by_cases h2 : k1.isEmpty = true
      · simp [List.filter_cons, h2, find, h1, ih]
      · simp [List.filter_cons, h2, find, h1, ih]

/-- Every code of a table that has been read has an entry in `reverseCodes`. -/
theorem find_reverseTable_isSome (entries : List (Byte × List Byte)) (c : Byte)
    (code : List Byte) (h : (c, code) ∈ entries) :
    ∃ d, find (reverseTable entries) code = some d := by
  induction entries using List.reverseRecOn with
  | nil => simp at h
  | append_singleton entries e ih =>
    have hfold : reverseTable (entries ++ [e]) = assign (reverseTable entries) e.2 e.1 := by
      simp [reverseTable, List.foldl_append]
    rw [hfold]
    by_cases he : e.2 = code
    · subst he
      exact ⟨e.1, find_assign_self _ _ _⟩
    · rw [find_assign_ne _ _ _ _ he]
      rcases List.mem_append.1 h with h | h
      · exact ih h
      · simp only [List.mem_singleton] at h
        subst h
        exact absurd rfl he

end Compressor

namespace Compressor

/-! ## Codes as paths -/

/-- The entries recorded for a tree are the paths that end at a node without children. -/
theorem mem_leafCodes_iff (t : Node) : ∀ (code : List Byte) (s : Byte) (q : List Byte),
    (s, q) ∈ leafCodes t code ↔ ∃ p, q = code ++ p ∧ leafAt t p = some s := by
  induction t with
  | nullptr =>
    intro code s q
    simp [leafCodes_nullptr, leafAt]
  | mk data f left right ihl ihr =>
    intro code s q
    by_cases hleaf : (left.isNull && right.isNull) = true
    · rw [leafCodes_leaf _ _ _ _ _ hleaf]
      simp only [List.mem_singleton, Prod.mk.injEq, leafAt, hleaf, if_true]
      constructor
      · rintro ⟨rfl, rfl⟩
        exact ⟨[], by simp, by simp⟩
      · rintro ⟨p, hq, hp⟩
        cases p with
        | nil =>
          simp only [List.isEmpty_nil, if_true, Option.some.injEq] at hp
          exact ⟨hp.symm, by simpa using hq⟩
        | cons b rest => simp at hp
    · rw [leafCodes_inner _ _ _ _ _ hleaf, List.mem_append, ihl, ihr]
      simp only [leafAt, hleaf, Bool.false_eq_true, if_false]
      constructor
      · rintro (⟨p, hq, hp⟩ | ⟨p, hq, hp⟩)
        · exact ⟨chr0 :: p, by simp [hq], by simp [hp]⟩
        · refine ⟨chr1 :: p, by simp [hq], ?_⟩
          have h10 : ¬ chr1 = chr0 := by decide
          simp [hp, h10]
      · rintro ⟨p, hq, hp⟩
        cases p with
        | nil => simp at hp
        | cons b rest =>
          by_cases hb0 : b = chr0
          · subst hb0
            simp only [if_true] at hp
            exact Or.inl ⟨rest, by simp [hq], hp⟩
          · by_cases hb1 : b = chr1
            · subst hb1
              simp only [hb0, if_false, if_true] at hp
              exact Or.inr ⟨rest, by simp [hq], hp⟩
            · simp [hb0, hb1] at hp

/-! ## Counting the merges -/

theorem pqPop_length (tie : Nat) (pq : List Node) (h : pq ≠ []) :
    (pqPop tie pq).length + 1 = pq.length := by
  have := (pqPop_perm tie pq h).length_eq
  simp only [List.length_cons] at this
  omega

/-- Each iteration shortens the queue by one, so a queue of `n` nodes is merged in
`n - 1` iterations. -/
theorem mergeCount_eq (fuel : Nat) : ∀ (ties : List Nat) (pq : List Node),
    pq.length ≤ fuel + 1 → mergeCount fuel ties pq = pq.length - 1 := by
  induction fuel with
  | zero =>
    intro ties pq hlen
    simp only [mergeCount]
    omega
  | succ n ih =>
    intro ties pq hlen
    by_cases h1 : 1 < pq.length
    · have hne : pq ≠ [] := by
        intro e
        rw [e] at h1
        simp at h1
      have hl1 := pqPop_length (ties.headD 0) pq hne
      have hne1 : pqPop (ties.headD 0) pq ≠ [] := by
        intro e
        rw [e] at hl1
        simp only [List.length_nil] at hl1
        omega
      have hl2 := pqPop_length (ties.tail.headD 0) (pqPop (ties.headD 0) pq) hne1
      simp only [mergeCount, h1, if_true, gt_iff_lt]
      rw [ih]
      · simp only [pqPush, List.length_append, List.length_singleton]
        omega
      · simp only [pqPush, List.length_append, List.length_singleton]
        omega
    · have : ¬ pq.length > 1 := h1
      simp only [mergeCount, this, if_false]
      omega

theorem leafQueue_length (text : List Byte) :
    (leafQueue (countFreq text)).length = text.dedup.length := by
  rw [leafQueue_eq, List.length_map, (countFreq_perm text).length_eq, List.length_map]

/-! ## Full trees and Kraft's equality -/

theorem twoChildren_of_wellFormed (t : Node) (h : WellFormed t) : twoChildren t = true := by
  induction t with
  | nullptr => rfl
  | mk data f left right ihl ihr =>
    unfold WellFormed at h
    rcases h with ⟨hl, hr⟩ | ⟨hl, hr, -⟩
    · subst hl hr
      rfl
    · simp [twoChildren, ihl hl, ihr hr, isNull_of_wellFormed _ hl, isNull_of_wellFormed _ hr]

/-- Kraft's equality below a node of a well-formed tree: the weights `2 ^ (-length)`
of the codes below the node add up to the weight of the path to the node. -/
theorem kraft_eq (t : Node) (h : WellFormed t) : ∀ (code : List Byte),
    ((leafRows t code).map (fun row => ((2 : ℚ)⁻¹) ^ row.2.2.length)).sum =
      ((2 : ℚ)⁻¹) ^ code.length := by
  induction t with
  | nullptr => exact absurd h (by simp [WellFormed])
  | mk data f left right ihl ihr =>
    intro code
    unfold WellFormed at h
    rcases h with ⟨hl, hr⟩ | ⟨hl, hr, -⟩
    · subst hl hr
      simp [leafRows, Node.isNull]
    · rw [leafRows_merge _ _ _ _ _ hl, List.map_append, List.sum_append, ihl hl, ihr hr]
      simp only [List.length_append, List.length_singleton, pow_succ]
      ring

theorem starts_nil (s : Nat → Byte) : Starts s [] := rfl

theorem starts_snoc (s : Nat → Byte) (code : List Byte) (h : Starts s code) :
    Starts s (code ++ [s code.length]) := by
  unfold Starts at h ⊢
  rw [List.length_append, List.length_singleton, List.range_succ, List.map_append, ← h]
  simp

/-- Following an infinite sequence of `'0'` and `'1'` down a well-formed tree ends at
a leaf: below every node whose path starts the sequence there is a code that starts it. -/
theorem exists_starts (s : Nat → Byte) (hs : ∀ i, s i = chr0 ∨ s i = chr1) (t : Node)
    (h : WellFormed t) : ∀ (code : List Byte), Starts s code →
    ∃ row ∈ leafRows t code, Starts s row.2.2 := by
  induction t with
  | nullptr => exact absurd h (by simp [WellFormed])
  | mk data f left right ihl ihr =>
    intro code hcode
    unfold WellFormed at h
    rcases h with ⟨hl, hr⟩ | ⟨hl, hr, -⟩
    · subst hl hr
      exact ⟨(data, f, code), by simp [leafRows, Node.isNull], hcode⟩
    · rw [leafRows_merge _ _ _ _ _ hl]
      have hnext := starts_snoc s code hcode
      rcases hs code.length with h0 | h1
      · rw [h0] at hnext
        obtain ⟨row, hrow, hst⟩ := ihl hl _ hnext
        exact ⟨row, List.mem_append_left _ hrow, hst⟩
      · rw [h1] at hnext
        obtain ⟨row, hrow, hst⟩ := ihr hr _ hnext
        exact ⟨row, List.mem_append_right _ hrow, hst⟩

/-- Of two strings that start the same sequence one is the beginning of the other. -/
theorem starts_begins (s : Nat → Byte) (c1 c2 : List Byte) (h1 : Starts s c1)
    (h2 : Starts s c2) (hle : c1.length ≤ c2.length) : c1 <+: c2 := by
  unfold Starts at h1 h2
  rw [h1, h2]
  apply List.IsPrefix.map
  obtain ⟨k, hk⟩ := Nat.exists_eq_add_of_le hle
  rw [hk, List.range_add]
  exact List.prefix_append _ _

/-! ## A text of `2 ^ 31` equal bytes -/

theorem count_replicate_a (n : Nat) : (List.replicate n (97 : Byte)).count 97 = n :=
  List.count_replicate_self 97 n

theorem length_replicate_a (n : Nat) : (List.replicate n (97 : Byte)).length = n :=
  List.length_replicate n 97

theorem replicate_a_ne_nil (n : Nat) : List.replicate (n + 1) (97 : Byte) ≠ [] := by
  simp [List.replicate_succ]

theorem huffmanRoot_replicate_overflow :
    huffmanRoot [] (List.replicate 2147483648 97) = Node.new 97 (-2147483648) := by
  have h := huffmanRoot_replicate [] 2147483647 97
  have hw : wrapInt (((2147483647 : Nat) : Int) + 1) = -2147483648 := by decide
  rw [hw] at h
  exact h

end Compressor

namespace Compressor

/-! ## The claims about the file format -/

/-- C11: the header written by `compressFile` can be read back exactly.  Whatever
bytes follow the table in the file, `decompressFile` reads a map that is the inverse
of the code table (a code is mapped to a character exactly when the table maps that
character to the code), whatever the order in which the entries were written, and the
bytes left to be read as payload are exactly the bytes that follow the table. -/
theorem header_reversible (ties order : List Nat) (text payload : List Byte) :
    (∃ written, compressFile ties order text =
        some (writeTable (iterate order (buildHuffmanTree ties text [])) ++ written)) ∧
    ∃ reverseCodes,
      readHeader (writeTable (iterate order (buildHuffmanTree ties text [])) ++ payload) =
        some (reverseCodes, payload) ∧
      ∀ (code : List Byte) (c : Byte),
        find reverseCodes code = some c ↔ find (buildHuffmanTree ties text []) c = some code := by
  obtain ⟨written, -, hc, -, -⟩ := compressFile_spec ties order text
  obtain ⟨hn, hlen⟩ := table_bounds ties order text
  exact ⟨⟨written, hc⟩, _, readHeader_writeTable _ payload hn hlen,
    fun code c => find_reverseTable_iterate ties order text code c⟩

/-- C12 fails: a file whose table declares the code length 0 for the character `A`
and the code "0" for the character `B`, followed by the payload byte 0, is not
rejected: `decompressFile` reads the table, keeps `A` under the empty string, and
returns eight times `B`. -/
theorem zero_length_code_accepted :
    writeTable [(65, []), (66, [48])] ++ [0] =
      [2, 0, 0, 0, 0, 0, 0, 0, 65, 0, 0, 0, 0, 0, 0, 0, 0, 66, 1, 0, 0, 0, 0, 0, 0, 0, 48, 0] ∧
    readHeader [2, 0, 0, 0, 0, 0, 0, 0, 65, 0, 0, 0, 0, 0, 0, 0, 0,
        66, 1, 0, 0, 0, 0, 0, 0, 0, 48, 0] = some ([([], 65), ([48], 66)], [0]) ∧
    decompressFile [2, 0, 0, 0, 0, 0, 0, 0, 65, 0, 0, 0, 0, 0, 0, 0, 0,
        66, 1, 0, 0, 0, 0, 0, 0, 0, 48, 0] = some [66, 66, 66, 66, 66, 66, 66, 66] := by
  refine ⟨by decide, by decide, by decide⟩

/-- C12 as amended: `decompressFile` reports no format error for a declared code
length of zero.  The entry is stored in `reverseCodes` under the empty string and the
file is decoded; the decoding loop looks a string up only after a bit has been added
to it, so the entry matches nothing and the output is the one of the map without it. -/
theorem zero_length_code_stored (entries : List (Byte × List Byte)) (payload : List Byte)
    (c : Byte) (hn : entries.length < 2 ^ 64) (hlen : ∀ e ∈ entries, e.2.length < 2 ^ 64)
    (hc : (c, []) ∈ entries) :
    decompressFile (writeTable entries ++ payload) =
      some (decodeBits (reverseTable entries) (readBits payload)).2 ∧
    (∃ d, find (reverseTable entries) [] = some d) ∧
    decodeBits (reverseTable entries) (readBits payload) =
      decodeBits ((reverseTable entries).filter (fun p => !p.1.isEmpty)) (readBits payload) :=
  ⟨decompressFile_writeTable entries payload hn hlen,
    find_reverseTable_isSome entries c [] hc,
    decodeBits_congr _ _ (fun k hk => (find_filter_ne_nil _ k hk).symm) _⟩

/-- C12 as amended, at the table that gives the empty code to `A` and "0" to `B`. -/
theorem zero_length_code_stored_witness :
    ([((65 : Byte), ([] : List Byte)), (66, [48])]).length < 2 ^ 64 ∧
    (∀ e ∈ [((65 : Byte), ([] : List Byte)), (66, [48])], e.2.length < 2 ^ 64) ∧
    ((65 : Byte), ([] : List Byte)) ∈ [((65 : Byte), ([] : List Byte)), (66, [48])] ∧
    (decompressFile (writeTable [(65, []), (66, [48])] ++ [0]) =
      some (decodeBits (reverseTable [(65, []), (66, [48])]) (readBits [0])).2 ∧
    (∃ d, find (reverseTable [((65 : Byte), ([] : List Byte)), (66, [48])]) [] = some d) ∧
    decodeBits (reverseTable [(65, []), (66, [48])]) (readBits [0]) =
      decodeBits ((reverseTable [(65, []), (66, [48])]).filter (fun p => !p.1.isEmpty))
        (readBits [0])) :=
  ⟨by simp, by simp, by simp,
    zero_length_code_stored [(65, []), (66, [48])] [0] 65 (by simp) (by simp) (by simp)⟩

/-- C13 fails: for the 10-byte text "aaaaaaaaab" the file written by `compressFile`
has 30 bytes, which is not fewer than 10. -/
theorem skewed_container_size :
    compressFile [] [] [97, 97, 97, 97, 97, 97, 97, 97, 97, 98] =
      some [2, 0, 0, 0, 0, 0, 0, 0, 98, 1, 0, 0, 0, 0, 0, 0, 0, 48,
        97, 1, 0, 0, 0, 0, 0, 0, 0, 49, 255, 2] ∧
    ([2, 0, 0, 0, 0, 0, 0, 0, 98, 1, 0, 0, 0, 0, 0, 0, 0, 48,
        97, 1, 0, 0, 0, 0, 0, 0, 0, 49, 255, 2] : List Byte).length = 30 ∧
    ¬ ([2, 0, 0, 0, 0, 0, 0, 0, 98, 1, 0, 0, 0, 0, 0, 0, 0, 48,
        97, 1, 0, 0, 0, 0, 0, 0, 0, 49, 255, 2] : List Byte).length < 10 := by
  refine ⟨by decide, by decide, by decide⟩

/-- C13 as amended: for the text "aaaaaaaaab" the file has 30 bytes, however ties are
decided and in whatever order the table is written: a header of 28 bytes (the size
and two entries of 10 bytes each) and the 2 payload bytes 255 and 2.  Only the payload
is smaller than the text. -/
theorem skewed_container_thirty_bytes (ties order : List Nat) :
    ∃ header, compressFile ties order [97, 97, 97, 97, 97, 97, 97, 97, 97, 98] =
        some (header ++ [255, 2]) ∧
      header = writeTable (iterate order
        (buildHuffmanTree ties [97, 97, 97, 97, 97, 97, 97, 97, 97, 98] [])) ∧
      header.length = 28 ∧ (header ++ [255, 2]).length = 30 := by
  have hp : packPayload [(98, [48]), (97, [49])] [97, 97, 97, 97, 97, 97, 97, 97, 97, 98] =
      some [255, 2] := by decide
  have hlen : (writeTable (iterate order [((98 : Byte), [(48 : Byte)]), (97, [49])])).length =
      28 := by
    rw [writeTable_length_perm (iterate_perm order _)]
    decide
  refine ⟨_, ?_, rfl, ?_, ?_⟩
  · simp only [compressFile, buildHuffmanTree_skewed, hp]
  · rw [buildHuffmanTree_skewed]
    exact hlen
  · rw [List.length_append, buildHuffmanTree_skewed, hlen]
    rfl

/-- C14: for a text whose length fits in an `int`, that is, is below `2 ^ 31`, the
frequency table computed at the start of `buildHuffmanTree` has one entry for every
byte value that occurs in the text and for no other; the count of an entry is the
number of occurrences of its byte, which is positive and at most the length of the
text; the counts add up to the length of the text. -/
theorem frequency_table (text : List Byte) (hlen : text.length < 2 ^ 31) :
    ((countFreq text).map Prod.fst).Nodup ∧
    (∀ c : Byte, c ∈ (countFreq text).map Prod.fst ↔ c ∈ text) ∧
    (∀ (c : Byte) (n : Int), (c, n) ∈ countFreq text →
      n = (text.count c : Int) ∧ 0 < n ∧ n ≤ (text.length : Int)) ∧
    ((countFreq text).map Prod.snd).sum = (text.length : Int) := by
  have hlen' : text.length < 2147483648 := by
    have : (2 : Nat) ^ 31 = 2147483648 := by norm_num
    omega
  refine ⟨countFreq_keys_nodup text, mem_keys_countFreq text, ?_, countFreq_sum text hlen'⟩
  intro c n h
  have hn : n = (text.count c : Int) := countFreq_nonneg text hlen' (c, n) h
  have hm : c ∈ text := ((mem_countFreq text c n).1 h).1
  have hpos : 0 < text.count c := List.count_pos_iff.2 hm
  have hle : text.count c ≤ text.length := List.count_le_length c text
  refine ⟨hn, ?_, ?_⟩
  · rw [hn]
    exact_mod_cast hpos
  · rw [hn]
    exact_mod_cast hle

/-- C14 at the text "aba": the table is `a` with count 2 and `b` with count 1. -/
theorem frequency_table_witness :
    ([97, 98, 97] : List Byte).length < 2 ^ 31 ∧
    countFreq [97, 98, 97] = [(97, 2), (98, 1)] ∧
    (((countFreq [97, 98, 97]).map Prod.fst).Nodup ∧
      (∀ c : Byte, c ∈ (countFreq [97, 98, 97]).map Prod.fst ↔ c ∈ ([97, 98, 97] : List Byte)) ∧
      (∀ (c : Byte) (n : Int), (c, n) ∈ countFreq [97, 98, 97] →
        n = (([97, 98, 97] : List Byte).count c : Int) ∧ 0 < n ∧
          n ≤ (([97, 98, 97] : List Byte).length : Int)) ∧
      ((countFreq [97, 98, 97]).map Prod.snd).sum = (([97, 98, 97] : List Byte).length : Int)) :=
  ⟨by simp, by decide, frequency_table [97, 98, 97] (by simp)⟩

end Compressor

namespace Compressor

/-! ## The claims about decoding, the tree and its codes -/

/-- C15: for a text with at least two distinct byte values whose code lengths add up
to a multiple of 8, decompressing the file written by `compressFile` gives the text
back.  The decoding loop, which collects bits until they match a code, inverts the
concatenation of the codes: run over the encoded text it writes the text and ends
with an empty `code`. -/
theorem conditional_round_trip (ties order : List Nat) (text : List Byte) (x y : Byte)
    (hx : x ∈ text) (hy : y ∈ text) (hxy : x ≠ y)
    (hT : (text.map (fun b =>
      (codeAt (buildHuffmanTree ties text []) b).length)).sum % 8 = 0) :
    (∃ container, compressFile ties order text = some container ∧
      decompressFile container = some text) ∧
    decodeBits (reverseTable (iterate order (buildHuffmanTree ties text [])))
      (encodedBits (buildHuffmanTree ties text []) text) = ([], text) := by
  have hdec := decodeBits_huffman ties order text x y hx hy hxy
  refine ⟨?_, hdec⟩
  obtain ⟨payload, hp, hc, -, hd⟩ := compressFile_spec ties order text
  obtain ⟨payload', hp', -, hbits⟩ := packPayload_spec (buildHuffmanTree ties text [])
    (isBits_codeAt ties text) text
  rw [hp] at hp'
  obtain rfl := Option.some.inj hp'
  rw [← encodedBits_length] at hT
  have hfull : 8 * ((encodedBits (buildHuffmanTree ties text []) text).length / 8) =
      (encodedBits (buildHuffmanTree ties text []) text).length := by omega
  rw [hfull, List.take_length] at hbits
  simp only [hT, if_true, List.append_nil] at hbits
  refine ⟨_, hc, ?_⟩
  rw [hd, hbits, hdec]

/-- C15 at the text "abababab", whose 8 codes of one bit fill one byte. -/
theorem conditional_round_trip_witness :
    (97 : Byte) ∈ ([97, 98, 97, 98, 97, 98, 97, 98] : List Byte) ∧
    (98 : Byte) ∈ ([97, 98, 97, 98, 97, 98, 97, 98] : List Byte) ∧ (97 : Byte) ≠ 98 ∧
    (([97, 98, 97, 98, 97, 98, 97, 98] : List Byte).map (fun b =>
      (codeAt (buildHuffmanTree [] [97, 98, 97, 98, 97, 98, 97, 98] []) b).length)).sum % 8
        = 0 ∧
    ((∃ container, compressFile [] [] [97, 98, 97, 98, 97, 98, 97, 98] = some container ∧
      decompressFile container = some [97, 98, 97, 98, 97, 98, 97, 98]) ∧
    decodeBits (reverseTable (iterate []
        (buildHuffmanTree [] [97, 98, 97, 98, 97, 98, 97, 98] [])))
      (encodedBits (buildHuffmanTree [] [97, 98, 97, 98, 97, 98, 97, 98] [])
        [97, 98, 97, 98, 97, 98, 97, 98]) = ([], [97, 98, 97, 98, 97, 98, 97, 98])) :=
  ⟨by decide, by decide, by decide, by decide,
    conditional_round_trip [] [] [97, 98, 97, 98, 97, 98, 97, 98] 97 98
      (by decide) (by decide) (by decide) (by decide)⟩

/-- C16: when the number `T` of encoded bits is not a multiple of 8, the last byte
`compressFile` writes holds the `T % 8` leftover bits in its low-order positions: its
value is the leftover bits read as a binary number, which is below `2 ^ (T % 8)`, so
its `8 - T % 8` high-order bits are zero; expanded most significant bit first, as
`decompressFile` does, it gives `8 - T % 8` zeros and then the leftover bits. -/
theorem leftover_bits_placement (ties order : List Nat) (text : List Byte)
    (hr : (encodedBits (buildHuffmanTree ties text []) text).length % 8 ≠ 0) :
    ∃ full last,
      compressFile ties order text =
        some (writeTable (iterate order (buildHuffmanTree ties text [])) ++ (full ++ [last])) ∧
      readBits full = (encodedBits (buildHuffmanTree ties text []) text).take
        (8 * ((encodedBits (buildHuffmanTree ties text []) text).length / 8)) ∧
      ((encodedBits (buildHuffmanTree ties text []) text).drop
        (8 * ((encodedBits (buildHuffmanTree ties text []) text).length / 8))).length =
          (encodedBits (buildHuffmanTree ties text []) text).length % 8 ∧
      last.val = binaryValue ((encodedBits (buildHuffmanTree ties text []) text).drop
        (8 * ((encodedBits (buildHuffmanTree ties text []) text).length / 8))) ∧
      last.val < 2 ^ ((encodedBits (buildHuffmanTree ties text []) text).length % 8) ∧
      bitsetToString last =
        List.replicate (8 - (encodedBits (buildHuffmanTree ties text []) text).length % 8) chr0 ++
          (encodedBits (buildHuffmanTree ties text []) text).drop
            (8 * ((encodedBits (buildHuffmanTree ties text []) text).length / 8)) := by
  obtain ⟨full, hp, hfull, hbits, hlen⟩ := packPayload_last (buildHuffmanTree ties text [])
    (isBits_codeAt ties text) text hr
  have hle : ((encodedBits (buildHuffmanTree ties text []) text).drop
      (8 * ((encodedBits (buildHuffmanTree ties text []) text).length / 8))).length ≤ 8 := by
    rw [hlen]
    omega
  have hval := val_ofNat_binaryValue _ hle
  refine ⟨full, _, ?_, hfull, hlen, hval, ?_, ?_⟩
  · simp only [compressFile, hp]
  · rw [hval, ← hlen]
    exact binaryValue_lt _
  · rw [bitsetToString_binaryValue _ hbits hle, hlen]

/-- C16 at the text "ab", whose two bits are written as the byte 1. -/
theorem leftover_bits_placement_witness :
    (encodedBits (buildHuffmanTree [] [97, 98] []) [97, 98]).length % 8 ≠ 0 ∧
    ∃ full last,
      compressFile [] [] [97, 98] =
        some (writeTable (iterate [] (buildHuffmanTree [] [97, 98] [])) ++ (full ++ [last])) ∧
      readBits full = (encodedBits (buildHuffmanTree [] [97, 98] []) [97, 98]).take
        (8 * ((encodedBits (buildHuffmanTree [] [97, 98] []) [97, 98]).length / 8)) ∧
      ((encodedBits (buildHuffmanTree [] [97, 98] []) [97, 98]).drop
        (8 * ((encodedBits (buildHuffmanTree [] [97, 98] []) [97, 98]).length / 8))).length =
          (encodedBits (buildHuffmanTree [] [97, 98] []) [97, 98]).length % 8 ∧
      last.val = binaryValue ((encodedBits (buildHuffmanTree [] [97, 98] []) [97, 98]).drop
        (8 * ((encodedBits (buildHuffmanTree [] [97, 98] []) [97, 98]).length / 8))) ∧
      last.val < 2 ^ ((encodedBits (buildHuffmanTree [] [97, 98] []) [97, 98]).length % 8) ∧
      bitsetToString last =
        List.replicate
            (8 - (encodedBits (buildHuffmanTree [] [97, 98] []) [97, 98]).length % 8) chr0 ++
          (encodedBits (buildHuffmanTree [] [97, 98] []) [97, 98]).drop
            (8 * ((encodedBits (buildHuffmanTree [] [97, 98] []) [97, 98]).length / 8)) :=
  ⟨by decide, leftover_bits_placement [] [] [97, 98] (by decide)⟩

/-- C17: for a tree whose leaves carry pairwise distinct characters, `generateCodes`
started at the root with the empty string records exactly one entry for every leaf:
a character is mapped to a string exactly when the walk from the root along that
string, left for `'0'` and right for `'1'`, ends at the leaf with that character. -/
theorem codes_follow_paths (t : Node) (h : ((leaves t).map Prod.fst).Nodup) :
    ((generateCodes t [] []).map Prod.fst).Nodup ∧
    (generateCodes t [] []).length = (leaves t).length ∧
    ∀ (s : Byte) (p : List Byte),
      find (generateCodes t [] []) s = some p ↔ leafAt t p = some s := by
  have hnd : ((leafCodes t []).map Prod.fst).Nodup := by
    rw [leafCodes_keys]
    exact h
  have heq : generateCodes t [] [] = leafCodes t [] := by
    rw [generateCodes_eq t [] [] (by simpa using hnd)]
    simp
  rw [heq]
  refine ⟨hnd, ?_, ?_⟩
  · have := congrArg List.length (leafCodes_keys t [])
    simpa using this
  · intro s p
    rw [← mem_iff_find _ hnd, mem_leafCodes_iff]
    simp

/-- C17 at a tree with the leaves `a`, `b` and `c`. -/
theorem codes_follow_paths_witness :
    ((leaves (.mk 36 3 (Node.new 97 1)
      (.mk 36 2 (Node.new 98 1) (Node.new 99 1)))).map Prod.fst).Nodup ∧
    (((generateCodes (.mk 36 3 (Node.new 97 1)
      (.mk 36 2 (Node.new 98 1) (Node.new 99 1))) [] []).map Prod.fst).Nodup ∧
    (generateCodes (.mk 36 3 (Node.new 97 1)
      (.mk 36 2 (Node.new 98 1) (Node.new 99 1))) [] []).length =
      (leaves (.mk 36 3 (Node.new 97 1)
        (.mk 36 2 (Node.new 98 1) (Node.new 99 1)))).length ∧
    ∀ (s : Byte) (p : List Byte),
      find (generateCodes (.mk 36 3 (Node.new 97 1)
        (.mk 36 2 (Node.new 98 1) (Node.new 99 1))) [] []) s = some p ↔
      leafAt (.mk 36 3 (Node.new 97 1)
        (.mk 36 2 (Node.new 98 1) (Node.new 99 1))) p = some s) :=
  ⟨by decide, codes_follow_paths _ (by decide)⟩

end Compressor

namespace Compressor

/-- C18: for a text with `n ≥ 1` distinct byte values the queue starts with `n`
leaves, the merge loop makes exactly `n - 1` iterations and ends, because the queue
holds exactly one node, the root; the root has exactly `n` leaves, one for every
distinct byte value of the text. -/
theorem merge_loop_single_root (ties : List Nat) (text : List Byte) (h : text ≠ []) :
    (leafQueue (countFreq text)).length = text.dedup.length ∧
    mergeCount (leafQueue (countFreq text)).length ties (leafQueue (countFreq text)) =
      text.dedup.length - 1 ∧
    mergeLoop (leafQueue (countFreq text)).length ties (leafQueue (countFreq text)) =
      [huffmanRoot ties text] ∧
    ((leaves (huffmanRoot ties text)).map Prod.fst).Perm text.dedup ∧
    (leaves (huffmanRoot ties text)).length = text.dedup.length := by
  have hperm : ((leaves (huffmanRoot ties text)).map Prod.fst).Perm text.dedup :=
    ((huffmanRoot_spec ties text h).2.map Prod.fst).trans (keys_countFreq_perm text)
  refine ⟨leafQueue_length text, ?_, mergeLoop_root ties text h, hperm, ?_⟩
  · rw [mergeCount_eq _ _ _ (by omega), leafQueue_length]
  · have := hperm.length_eq
    simpa using this

/-- C18 at the text "abca", which has three distinct byte values. -/
theorem merge_loop_single_root_witness :
    ([97, 98, 99, 97] : List Byte) ≠ [] ∧
    ((leafQueue (countFreq [97, 98, 99, 97])).length =
      ([97, 98, 99, 97] : List Byte).dedup.length ∧
    mergeCount (leafQueue (countFreq [97, 98, 99, 97])).length []
        (leafQueue (countFreq [97, 98, 99, 97])) =
      ([97, 98, 99, 97] : List Byte).dedup.length - 1 ∧
    mergeLoop (leafQueue (countFreq [97, 98, 99, 97])).length []
        (leafQueue (countFreq [97, 98, 99, 97])) =
      [huffmanRoot [] [97, 98, 99, 97]] ∧
    ((leaves (huffmanRoot [] [97, 98, 99, 97])).map Prod.fst).Perm
      ([97, 98, 99, 97] : List Byte).dedup ∧
    (leaves (huffmanRoot [] [97, 98, 99, 97])).length =
      ([97, 98, 99, 97] : List Byte).dedup.length) :=
  ⟨by simp, merge_loop_single_root [] [97, 98, 99, 97] (by simp)⟩

/-- C19: in the tree built for a non-empty text, in particular for a text with at
least two distinct byte values, every node has no child or two children; the code
lengths satisfy Kraft's equality, the sum over the distinct characters of
`2 ^ (-length of the code)` being 1; and the code is complete: every infinite sequence
of `'0'` and `'1'` starts with exactly one code of the table. -/
theorem kraft_equality (ties : List Nat) (text : List Byte) (h : text ≠ []) :
    (huffmanRoot ties text).isNull = false ∧
    twoChildren (huffmanRoot ties text) = true ∧
    (text.dedup.map (fun s =>
      ((2 : ℚ)⁻¹) ^ (codeAt (buildHuffmanTree ties text []) s).length)).sum = 1 ∧
    ∀ s : Nat → Byte, (∀ i, s i = chr0 ∨ s i = chr1) →
      ∃! code, code ∈ (buildHuffmanTree ties text []).map Prod.snd ∧ Starts s code := by
  obtain ⟨hwf, hleaves⟩ := huffmanRoot_spec ties text h
  refine ⟨isNull_of_wellFormed _ hwf, twoChildren_of_wellFormed _ hwf, ?_, ?_⟩
  · have hk := kraft_eq _ hwf []
    simp only [List.length_nil, pow_zero] at hk
    have hkeys : ((buildHuffmanTree ties text []).map Prod.fst).Perm text.dedup :=
      (buildHuffmanTree_keys ties text).trans (keys_countFreq_perm text)
    rw [← (hkeys.map (fun s =>
      ((2 : ℚ)⁻¹) ^ (codeAt (buildHuffmanTree ties text []) s).length)).sum_eq, ← hk,
      List.map_map]
    have hrows : ∀ row ∈ leafRows (huffmanRoot ties text) [],
        codeAt (buildHuffmanTree ties text []) row.1 = row.2.2 :=
      fun row hrow => codeAt_row ties text h row hrow
    rw [buildHuffmanTree_eq ties text h]
    simp only [leafCodes, List.map_map]
    congr 1
    apply List.map_congr_left
    intro row hrow
    have := hrows row hrow
    rw [buildHuffmanTree_eq ties text h] at this
    simp only [leafCodes] at this
    simp [Function.comp_def, this]
  · intro s hs
    obtain ⟨row, hrow, hst⟩ := exists_starts s hs _ hwf [] (starts_nil s)
    have hmem : ∀ r ∈ leafRows (huffmanRoot ties text) [],
        r.2.2 ∈ (buildHuffmanTree ties text []).map Prod.snd := by
      intro r hr
      rw [buildHuffmanTree_eq ties text h]
      simp only [leafCodes, List.map_map]
      exact List.mem_map.2 ⟨r, hr, rfl⟩
    refine ⟨row.2.2, ⟨hmem row hrow, hst⟩, ?_⟩
    rintro code ⟨hcode, hcs⟩
    by_contra hne
    obtain ⟨e1, he1, rfl⟩ := List.mem_map.1 hcode
    obtain ⟨e2, he2, he2eq⟩ := List.mem_map.1 (hmem row hrow)
    have hsym : Symmetric (fun a b : Byte × List Byte => Unrelated a.2 b.2) :=
      fun _ _ hu => ⟨hu.2, hu.1⟩
    have hdiff : e1 ≠ e2 := by
      intro e
      apply hne
      rw [e, he2eq]
    have hun := (buildHuffmanTree_pairwise ties text).forall hsym he1 he2 hdiff
    rw [he2eq] at hun
    rcases Nat.le_total e1.2.length row.2.2.length with hle | hle
    · exact hun.1 (starts_begins s _ _ hcs hst hle)
    · exact hun.2 (starts_begins s _ _ hst hcs hle)

/-- C19 at the text "ab". -/
theorem kraft_equality_witness :
    ([97, 98] : List Byte) ≠ [] ∧
    ((huffmanRoot [] [97, 98]).isNull = false ∧
    twoChildren (huffmanRoot [] [97, 98]) = true ∧
    (([97, 98] : List Byte).dedup.map (fun s =>
      ((2 : ℚ)⁻¹) ^ (codeAt (buildHuffmanTree [] [97, 98] []) s).length)).sum = 1 ∧
    ∀ s : Nat → Byte, (∀ i, s i = chr0 ∨ s i = chr1) →
      ∃! code, code ∈ (buildHuffmanTree [] [97, 98] []).map Prod.snd ∧ Starts s code) :=
  ⟨by simp, kraft_equality [] [97, 98] (by simp)⟩

/-- C20 fails: for the text of `2 ^ 31` bytes `a` the tree is a single leaf whose
frequency is `-2 ^ 31`, which is neither the number of occurrences of `a` nor the
length of the text. -/
theorem weights_wrap_after_overflow :
    List.replicate 2147483648 (97 : Byte) ≠ [] ∧
    huffmanRoot [] (List.replicate 2147483648 97) = Node.new 97 (-2147483648) ∧
    leaves (huffmanRoot [] (List.replicate 2147483648 97)) = [(97, -2147483648)] ∧
    (List.replicate 2147483648 (97 : Byte)).count 97 = 2147483648 ∧
    (List.replicate 2147483648 (97 : Byte)).length = 2147483648 ∧
    ¬ (∀ (c : Byte) (n : Int),
        (c, n) ∈ leaves (huffmanRoot [] (List.replicate 2147483648 97)) →
          n = ((List.replicate 2147483648 (97 : Byte)).count c : Int)) ∧
    ¬ ((huffmanRoot [] (List.replicate 2147483648 97)).frequency =
        ((List.replicate 2147483648 (97 : Byte)).length : Int)) := by
  have hroot := huffmanRoot_replicate_overflow
  have hcount := count_replicate_a 2147483648
  have hlength := length_replicate_a 2147483648
  have hleaves : leaves (huffmanRoot [] (List.replicate 2147483648 97)) =
      [(97, -2147483648)] := by
    rw [hroot]
    rfl
  refine ⟨replicate_a_ne_nil 2147483647, hroot, hleaves, hcount, hlength, ?_, ?_⟩
  · intro hall
    have h1 := hall 97 (-2147483648) (by rw [hleaves]; exact List.mem_singleton.2 rfl)
    rw [hcount] at h1
    omega
  · rw [hroot, hlength]
    intro h1
    have h2 : (Node.new 97 (-2147483648)).frequency = -2147483648 := rfl
    rw [h2] at h1
    omega

/-- C20 as amended: in the tree built for a non-empty text shorter than `2 ^ 31` bytes
every leaf carries the number of occurrences of its character, every node with
children carries the sum of the frequencies of its two children, and the root carries
the length of the text. -/
theorem tree_weights (ties : List Nat) (text : List Byte) (h : text ≠ [])
    (hlen : text.length < 2 ^ 31) :
    Additive (huffmanRoot ties text) ∧
    (∀ (c : Byte) (n : Int), (c, n) ∈ leaves (huffmanRoot ties text) →
      c ∈ text ∧ n = (text.count c : Int)) ∧
    (huffmanRoot ties text).frequency = (text.length : Int) := by
  have hlen' : text.length < 2147483648 := by
    have : (2 : Nat) ^ 31 = 2147483648 := by norm_num
    omega
  have hadd := huffmanRoot_additive ties text h hlen'
  obtain ⟨-, hleaves⟩ := huffmanRoot_spec ties text h
  refine ⟨hadd, ?_, ?_⟩
  · intro c n hmem
    have hm := hleaves.subset hmem
    exact ⟨((mem_countFreq text c n).1 hm).1, countFreq_nonneg text hlen' (c, n) hm⟩
  · rw [← leafSum_eq_frequency _ hadd, leafSum, (hleaves.map Prod.snd).sum_eq]
    exact countFreq_sum text hlen'

/-- C20 as amended, at the text "abca". -/
theorem tree_weights_witness :
    ([97, 98, 99, 97] : List Byte) ≠ [] ∧
    ([97, 98, 99, 97] : List Byte).length < 2 ^ 31 ∧
    (Additive (huffmanRoot [] [97, 98, 99, 97]) ∧
    (∀ (c : Byte) (n : Int), (c, n) ∈ leaves (huffmanRoot [] [97, 98, 99, 97]) →
      c ∈ ([97, 98, 99, 97] : List Byte) ∧
        n = (([97, 98, 99, 97] : List Byte).count c : Int)) ∧
    (huffmanRoot [] [97, 98, 99, 97]).frequency =
      (([97, 98, 99, 97] : List Byte).length : Int)) :=
  ⟨by simp, by simp, tree_weights [] [97, 98, 99, 97] (by simp) (by simp)⟩

end Compressor
